import Mathlib

/-!
# Task board: the `TaskManager` store of `assets/js/app.js`

A shallow embedding of the in-memory task store (`tasks`, `nextId`), its
mutations (`handleSubmit`, `deleteTask`) and its persistence
(`saveTasksToStorage`, `loadTasksFromStorage`) together with the pieces of the
JavaScript host they call: `String.prototype.trim`, `parseInt`, `JSON.stringify`
on a task list and `JSON.parse`.

Modelling conventions.

* JavaScript strings are Lean `String`s (well-formed Unicode text).
* Task ids and `nextId` are natural numbers. The source keeps them in
  JavaScript numbers (IEEE-754 doubles), which represent every integer up to
  `2 ^ 53` exactly. The one arithmetic operation of the store, adding one
  (`this.nextId++`, `Math.max(...) + 1`), is the parameter `increment` of the
  definitions: `doubleIncrement` is what the source computes, `exactIncrement`
  is the successor on the integers, and the two agree below `2 ^ 53`.
  `parseInt`, `JSON.parse` and `Number::toString` are exact on integers up to
  `2 ^ 53`; above, the builtins round to a double where the model does not.
* `String.prototype.toLowerCase` depends on the Unicode case tables and is
  taken as a parameter `toLowerCase : String → String`; every general theorem
  holds for an arbitrary such function. `asciiToLowerCase` instantiates it in
  concrete runs (it agrees with the builtin on ASCII text).
* `new Date().toISOString()` is the input `now` of a submission, and the answer
  of `confirm(...)` is the input `confirmed` of a deletion.
* Rendering (`renderTasks`, `updateCounts`, the modal and the toast messages)
  does not touch `tasks`, `nextId` or the storage entry and is left out; the
  toast that `handleSubmit` shows is kept as its `Feedback`.
* `localStorage.setItem` is assumed to accept the write.
* `JSON.parse` follows the JSON grammar on the whole text. Where the parsed
  value leaves what a `Task` record can hold (a lone surrogate escape, an array
  element that is neither `null` nor a task record) the outcome is `unmodelled`
  and nothing is claimed about it; `throw` and `normal` are only returned where
  the source throws or returns.
-/

namespace TaskManager

/-! ## Host strings -/

/-- The code points `String.prototype.trim` strips: ECMAScript `WhiteSpace`
(TAB, VT, FF, ZWNBSP and the Unicode space separators) and `LineTerminator`
(LF, CR, LS, PS). `parseInt` skips the same set in front of its argument. -/
def isStrWhiteSpaceChar (c : Char) : Bool :=
  let n := c.toNat
  n == 0x09 || n == 0x0A || n == 0x0B || n == 0x0C || n == 0x0D || n == 0x20 ||
  n == 0xA0 || n == 0x1680 || (0x2000 ≤ n && n ≤ 0x200A) || n == 0x2028 ||
  n == 0x2029 || n == 0x202F || n == 0x205F || n == 0x3000 || n == 0xFEFF

/-- The characters of a string with leading and trailing white space removed. -/
def trimChars (cs : List Char) : List Char :=
  ((cs.dropWhile isStrWhiteSpaceChar).reverse.dropWhile isStrWhiteSpaceChar).reverse

/-- The builtin `String.prototype.trim`. -/
def trim (s : String) : String := ⟨trimChars s.data⟩

/-- An instance of the `toLowerCase` parameter for concrete runs: maps `A`–`Z` to
`a`–`z` and leaves every other character alone. -/
def asciiToLowerCase (s : String) : String := ⟨s.data.map Char.toLower⟩

/-- The value of a character as a digit in the given radix, if it is one. -/
def digitValue (radix : Nat) (c : Char) : Option Nat :=
  let n := c.toNat
  let v : Option Nat :=
    if 48 ≤ n ∧ n ≤ 57 then some (n - 48)
    else if 97 ≤ n ∧ n ≤ 122 then some (n - 87)
    else if 65 ≤ n ∧ n ≤ 90 then some (n - 55)
    else none
  v.filter (fun d => d < radix)

/-- The longest prefix of digits of the given radix, most significant first,
together with what follows it. -/
def takeDigits (radix : Nat) : List Char → List Nat × List Char
  | [] => ([], [])
  | c :: cs =>
    match digitValue radix c with
    | some d => ((takeDigits radix cs).1.cons d, (takeDigits radix cs).2)
    | none => ([], c :: cs)

/-- The number written by a list of digits, most significant first. -/
def digitsToNat (radix : Nat) (ds : List Nat) : Nat :=
  ds.foldl (fun acc d => acc * radix + d) 0

/-- The builtin `parseInt(string)` called without a radix: skips white space,
reads a sign, a `0x`/`0X` prefix (radix 16, else radix 10) and the longest run
of digits. `none` stands for `NaN`. -/
def parseInt (s : String) : Option Int :=
  let cs := s.data.dropWhile isStrWhiteSpaceChar
  let neg : Bool := cs.head? == some '-'
  let cs := if cs.head? == some '-' || cs.head? == some '+' then cs.tail else cs
  let hex : Bool := cs.take 2 == ['0', 'x'] || cs.take 2 == ['0', 'X']
  let radix := if hex then 16 else 10
  let cs := if hex then cs.drop 2 else cs
  let ds := (takeDigits radix cs).1
  if ds.isEmpty then none
  else if neg then some (-(digitsToNat radix ds : Int))
  else some (digitsToNat radix ds : Int)

/-- The decimal text of a natural number: `Number::toString` on a non-negative
integer (as used by `String(taskId)` and by `JSON.stringify`). -/
def numberToString (n : Nat) : String := ⟨Nat.toDigits 10 n⟩

/-- The value of `n + 1` in double arithmetic (round to nearest, ties to even)
for a non-negative integer `n` that is itself a double: exact below `2 ^ 53`;
from `2 ^ 53` on the doubles are two apart and `n + 1` is a tie, resolved
towards the even significand; from `2 ^ 54` on `n + 1` rounds back to `n`. -/
def doubleIncrement (n : Nat) : Nat :=
  if n < 2 ^ 53 then n + 1
  else if n < 2 ^ 54 ∧ n / 2 % 2 = 1 then n + 2
  else n

/-- The successor on the integers, which `doubleIncrement` is below `2 ^ 53`. -/
def exactIncrement (n : Nat) : Nat := n + 1

/-! ## Data model -/

/-- A task record, with its properties in the order `handleSubmit` creates them. -/
structure Task where
  id : Nat
  taskName : String
  assigneeName : String
  teamName : String
  status : String
  createdAt : String
deriving DecidableEq, Repr

end TaskManager

/-- The store: the two fields of a `TaskManager` instance and the
`localStorage` entry `taskManagerTasks` it reads and writes (`none`: the key is
absent, `getItem` returns `null`). -/
structure TaskManager where
  tasks : List TaskManager.Task
  nextId : Nat
  storage : Option String
deriving DecidableEq, Repr

namespace TaskManager

/-- The fields of the submitted form, as `FormData.get` returns them. -/
structure FormData where
  taskName : String
  assigneeName : String
  teamName : String
  status : String
deriving DecidableEq, Repr

/-! ## `JSON.stringify` on a task list -/

/-- The double quote, `U+0022`. -/
def dquote : Char := Char.ofNat 0x22

/-- The backslash, `U+005C`. -/
def backslash : Char := Char.ofNat 0x5C

/-- One code point of a string as `JSON.stringify` writes it (`QuoteJSONString`):
the two-character escapes for backspace, tab, line feed, form feed, carriage
return, the double quote and the backslash, a lower-case `\u00XX` escape for
every other control character below `U+0020`, and the character itself
otherwise. -/
def quoteJSONChar (c : Char) : List Char :=
  if c.toNat = 0x08 then [backslash, 'b']
  else if c.toNat = 0x09 then [backslash, 't']
  else if c.toNat = 0x0A then [backslash, 'n']
  else if c.toNat = 0x0C then [backslash, 'f']
  else if c.toNat = 0x0D then [backslash, 'r']
  else if c.toNat = 0x22 then [backslash, dquote]
  else if c.toNat = 0x5C then [backslash, backslash]
  else if c.toNat < 0x20 then
    [backslash, 'u', '0', '0', Nat.digitChar (c.toNat / 16), Nat.digitChar (c.toNat % 16)]
  else [c]

/-- The escaped characters of a string, without the enclosing quotes. -/
def quoteJSONChars : List Char → List Char
  | [] => []
  | c :: cs => quoteJSONChar c ++ quoteJSONChars cs

/-- A string as a JSON string literal. -/
def quoteJSONString (s : String) : List Char :=
  dquote :: (quoteJSONChars s.data ++ [dquote])

/-- Texts joined by commas, the way `JSON.stringify` joins the elements of an
array and the members of an object. -/
def joinComma : List (List Char) → List Char
  | [] => []
  | [x] => x
  | x :: y :: rest => x ++ ',' :: joinComma (y :: rest)

/-- One member of an object: the quoted key, a colon, the text of the value. -/
def stringifyMember (key : String) (value : List Char) : List Char :=
  quoteJSONString key ++ ':' :: value

/-- A task as `JSON.stringify` writes it: its six properties in creation
order, no white space. -/
def stringifyTask (t : Task) : List Char :=
  '{' :: (joinComma
    [stringifyMember "id" (numberToString t.id).data,
     stringifyMember "taskName" (quoteJSONString t.taskName),
     stringifyMember "assigneeName" (quoteJSONString t.assigneeName),
     stringifyMember "teamName" (quoteJSONString t.teamName),
     stringifyMember "status" (quoteJSONString t.status),
     stringifyMember "createdAt" (quoteJSONString t.createdAt)] ++ ['}'])

/-- The builtin `JSON.stringify(this.tasks)` on a list of task records. -/
def stringifyTasks (tasks : List Task) : String :=
  ⟨'[' :: (joinComma (tasks.map stringifyTask) ++ [']'])⟩

/-! ## `JSON.parse` -/

/-- The errors the modelled code can raise. -/
inductive JsError
  | syntaxError     -- SyntaxError, from JSON.parse
  | typeError       -- TypeError, from a property access or a call
deriving DecidableEq, Repr

/-- How a call ends: it returns, it throws, or it leaves the fragment of
JavaScript this development models (the outcome is then left open). -/
inductive Completion (α : Type)
  | normal (value : α)
  | throw (error : JsError)
  | unmodelled
deriving DecidableEq, Repr

/-- A JSON value as `JSON.parse` builds it. A number is kept exactly, as
`mantissa * 10 ^ exponent`; the members of an object are in source order. -/
inductive Json
  | null
  | bool (b : Bool)
  | num (mantissa : Int) (exponent : Int)
  | str (s : String)
  | arr (elements : List Json)
  | obj (members : List (String × Json))

/-- The result of reading a prefix of the text: the value read and the text
left, a syntax error, or `unsupported` (a lone surrogate escape, which a
`String` cannot hold, or exhausted fuel). -/
inductive ParseResult (α : Type)
  | ok (value : α) (rest : List Char)
  | syntaxError
  | unsupported

/-- Applies a function to the value read. -/
def ParseResult.map {α β : Type} (f : α → β) : ParseResult α → ParseResult β
  | .ok v rest => .ok (f v) rest
  | .syntaxError => .syntaxError
  | .unsupported => .unsupported

/-- JSON white space: tab, line feed, carriage return, space. -/
def isJSONWhiteSpace (c : Char) : Bool :=
  c.toNat == 0x09 || c.toNat == 0x0A || c.toNat == 0x0D || c.toNat == 0x20

/-- Drops leading JSON white space. -/
def skipWhiteSpace (cs : List Char) : List Char := cs.dropWhile isJSONWhiteSpace

/-- The value of four hexadecimal digits. -/
def hexValue4 (a b c d : Char) : Option Nat :=
  match digitValue 16 a, digitValue 16 b, digitValue 16 c, digitValue 16 d with
  | some x, some y, some z, some w => some (((x * 16 + y) * 16 + z) * 16 + w)
  | _, _, _, _ => none

/-- The code point of a `\uXXXX` escape, read from just after the `u`. A high
surrogate pairs with a low surrogate escape right after it; a surrogate on its
own is `unsupported`. -/
def parseUnicodeEscape : List Char → ParseResult Char
  | h1 :: h2 :: h3 :: h4 :: cs2 =>
    match hexValue4 h1 h2 h3 h4 with
    | none => .syntaxError
    | some n =>
      if n < 0xD800 ∨ 0xE000 ≤ n then .ok (Char.ofNat n) cs2
      else if n < 0xDC00 then
        match cs2 with
        | b1 :: u1 :: l1 :: l2 :: l3 :: l4 :: cs3 =>
          match hexValue4 l1 l2 l3 l4 with
          | some m =>
            if b1 = backslash ∧ u1 = 'u' ∧ 0xDC00 ≤ m ∧ m < 0xE000 then
              .ok (Char.ofNat (0x10000 + (n - 0xD800) * 0x400 + (m - 0xDC00))) cs3
            else .unsupported
          | none => .unsupported
        | _ => .unsupported
      else .unsupported
  | _ => .syntaxError

/-- The character an escape sequence stands for, read from just after the backslash. -/
def parseEscape : List Char → ParseResult Char
  | [] => .syntaxError
  | e :: cs =>
    if e = dquote then .ok dquote cs
    else if e = backslash then .ok backslash cs
    else if e = '/' then .ok '/' cs
    else if e = 'b' then .ok (Char.ofNat 0x08) cs
    else if e = 'f' then .ok (Char.ofNat 0x0C) cs
    else if e = 'n' then .ok (Char.ofNat 0x0A) cs
    else if e = 'r' then .ok (Char.ofNat 0x0D) cs
    else if e = 't' then .ok (Char.ofNat 0x09) cs
    else if e = 'u' then parseUnicodeEscape cs
    else .syntaxError

/-- The characters of a JSON string, read from just after its opening quote up
to and including its closing quote. One unit of fuel is spent on each character
or escape sequence. -/
def parseStringChars : Nat → List Char → ParseResult (List Char)
  | _, [] => .syntaxError
  | 0, _ :: _ => .unsupported
  | fuel + 1, c :: cs =>
    if c = dquote then .ok [] cs
    else if c = backslash then
      match parseEscape cs with
      | .ok ch rest => (parseStringChars fuel rest).map (List.cons ch)
      | .syntaxError => .syntaxError
      | .unsupported => .unsupported
    else if c.toNat < 0x20 then .syntaxError
    else (parseStringChars fuel cs).map (List.cons c)

/-- A JSON string, read from just after its opening quote; the length of the
text is fuel enough. -/
def parseString (cs : List Char) : ParseResult (List Char) :=
  parseStringChars cs.length cs

/-- A JSON number `-? int frac? exp?`, read from its first character. -/
def parseNumber (cs : List Char) : ParseResult Json :=
  let neg : Bool := cs.head? == some '-'
  let cs := if neg then cs.tail else cs
  -- int: a single 0, or a run of digits
  let (ds, rest) := if cs.head? == some '0' then ([0], cs.tail) else takeDigits 10 cs
  if ds.isEmpty then .syntaxError
  else
    -- frac
    let hasFrac : Bool := rest.head? == some '.'
    let (fs, rest1) := if hasFrac then takeDigits 10 rest.tail else ([], rest)
    if hasFrac && fs.isEmpty then .syntaxError
    else
      -- exp
      let hasExp : Bool := rest1.head? == some 'e' || rest1.head? == some 'E'
      let afterE := rest1.tail
      let expNeg : Bool := afterE.head? == some '-'
      let afterSign :=
        if afterE.head? == some '-' || afterE.head? == some '+' then afterE.tail else afterE
      let (es, rest2) := if hasExp then takeDigits 10 afterSign else ([], rest1)
      if hasExp && es.isEmpty then .syntaxError
      else
        let mantissa : Int := digitsToNat 10 (ds ++ fs)
        let exponent : Int := if expNeg then -(digitsToNat 10 es : Int) else digitsToNat 10 es
        .ok (.num (if neg then -mantissa else mantissa) (exponent - fs.length)) rest2

/-- One of the literals `true`, `false`, `null`. -/
def parseLiteral (literal : String) (value : Json) (cs : List Char) : ParseResult Json :=
  if cs.take literal.length = literal.data then .ok value (cs.drop literal.length)
  else .syntaxError

/-- The elements of an array after its first one is known to exist, up to and
including the closing bracket; `parseValue` reads one element. -/
def parseElements (parseValue : List Char → ParseResult Json) :
    Nat → List Char → ParseResult (List Json)
  | 0, _ => .unsupported
  | fuel + 1, cs =>
    match parseValue cs with
    | .ok v rest =>
      match skipWhiteSpace rest with
      | [] => .syntaxError
      | c :: rest1 =>
        if c = ',' then (parseElements parseValue fuel rest1).map (List.cons v)
        else if c = ']' then .ok [v] rest1
        else .syntaxError
    | .syntaxError => .syntaxError
    | .unsupported => .unsupported

/-- The members of a non-empty object, up to and including the closing brace;
`parseValue` reads one member value. -/
def parseMembers (parseValue : List Char → ParseResult Json) :
    Nat → List Char → ParseResult (List (String × Json))
  | 0, _ => .unsupported
  | fuel + 1, cs =>
    match skipWhiteSpace cs with
    | [] => .syntaxError
    | q :: rest =>
      if q = dquote then
        match parseString rest with
        | .ok key rest1 =>
          match skipWhiteSpace rest1 with
          | [] => .syntaxError
          | c :: rest2 =>
            if c = ':' then
              match parseValue rest2 with
              | .ok v rest3 =>
                match skipWhiteSpace rest3 with
                | [] => .syntaxError
                | d :: rest4 =>
                  if d = ',' then
                    (parseMembers parseValue fuel rest4).map (List.cons (String.mk key, v))
                  else if d = '}' then .ok [(String.mk key, v)] rest4
                  else .syntaxError
              | .syntaxError => .syntaxError
              | .unsupported => .unsupported
            else .syntaxError
        | .syntaxError => .syntaxError
        | .unsupported => .unsupported
      else .syntaxError

/-- One JSON value with the white space before it. The fuel bounds the nesting
depth and the number of elements of an array or object; the length of the text
bounds both. -/
def parseValue : Nat → List Char → ParseResult Json
  | 0, _ => .unsupported
  | fuel + 1, cs =>
    match skipWhiteSpace cs with
    | [] => .syntaxError
    | c :: rest =>
      if c = dquote then (parseString rest).map (fun s => Json.str (String.mk s))
      else if c = '[' then
        match skipWhiteSpace rest with
        | [] => .syntaxError
        | c1 :: rest1 =>
          if c1 = ']' then .ok (.arr []) rest1
          else (parseElements (parseValue fuel) fuel (c1 :: rest1)).map Json.arr
      else if c = '{' then
        match skipWhiteSpace rest with
        | [] => .syntaxError
        | c1 :: rest1 =>
          if c1 = '}' then .ok (.obj []) rest1
          else (parseMembers (parseValue fuel) fuel (c1 :: rest1)).map Json.obj
      else if c = 't' then parseLiteral "rue" (.bool true) rest
      else if c = 'f' then parseLiteral "alse" (.bool false) rest
      else if c = 'n' then parseLiteral "ull" .null rest
      else if c = '-' ∨ (digitValue 10 c).isSome then parseNumber (c :: rest)
      else .syntaxError

/-- The builtin `JSON.parse(text)`: one value, white space around it, nothing else. -/
def JSON.parse (text : String) : Completion Json :=
  match parseValue (text.length + 1) text.data with
  | .ok v rest => if (skipWhiteSpace rest).isEmpty then .normal v else .throw .syntaxError
  | .syntaxError => .throw .syntaxError
  | .unsupported => .unmodelled

/-- A JSON number as a task id, when it is a non-negative integer. -/
def Json.toId? : Json → Option Nat
  | .num m e =>
    if m < 0 then none
    else if 0 ≤ e then some (m.toNat * 10 ^ e.toNat)
    else if m.toNat % 10 ^ (-e).toNat = 0 then some (m.toNat / 10 ^ (-e).toNat)
    else none
  | _ => none

/-- A parsed object as a task record: exactly the six properties of a task, in
creation order, a non-negative integer for `id` and strings for the rest. -/
def Json.toTask? : Json → Option Task
  | .obj [(k1, n), (k2, .str a), (k3, .str b), (k4, .str c), (k5, .str d), (k6, .str e)] =>
    if k1 = "id" ∧ k2 = "taskName" ∧ k3 = "assigneeName" ∧ k4 = "teamName" ∧
        k5 = "status" ∧ k6 = "createdAt" then
      n.toId?.map (fun i => ⟨i, a, b, c, d, e⟩)
    else none
  | _ => none

/-- A parsed array as a list of task records, when every element is one. -/
def toTasks? : List Json → Option (List Task)
  | [] => some []
  | v :: vs =>
    match v.toTask?, toTasks? vs with
    | some t, some ts => some (t :: ts)
    | _, _ => none

/-- Whether the value is `null`. -/
def Json.isNull : Json → Bool
  | .null => true
  | _ => false

/-- The JSON value `JSON.parse` builds from the text of a task. -/
def Task.toJson (t : Task) : Json :=
  .obj [("id", .num (t.id : Int) 0), ("taskName", .str t.taskName),
    ("assigneeName", .str t.assigneeName), ("teamName", .str t.teamName),
    ("status", .str t.status), ("createdAt", .str t.createdAt)]

end TaskManager

/-- The method `loadTasksFromStorage`. A blob that parses to an array of task records
replaces `tasks`, and `nextId` becomes `Math.max(...ids, 0) + 1`, the addition
being `increment`. `JSON.parse`
throwing, `this.tasks.map` missing (the value is not an array) and `t.id`
on `null` end the call with the error. An array that holds anything else than
task records and `null` is outside the data model. -/
def TaskManager.loadTasksFromStorage (increment : Nat → Nat) (tm : TaskManager) :
    TaskManager.Completion TaskManager :=
  match tm.storage with
  | none => .normal tm
  | some stored =>
    if stored = "" then .normal tm
    else
      match TaskManager.JSON.parse stored with
      | .throw e => .throw e
      | .unmodelled => .unmodelled
      | .normal (.arr elements) =>
        if elements.any TaskManager.Json.isNull then .throw .typeError
        else
          match TaskManager.toTasks? elements with
          | some tasks =>
            .normal { tm with
              tasks := tasks
              nextId := increment ((tasks.map (fun t => t.id)).foldr max 0) }
          | none => .unmodelled
      | .normal _ => .throw .typeError

/-- The constructor followed by `init`: an empty store with `nextId = 1`, then
`loadTasksFromStorage` on the storage entry the page finds. -/
def TaskManager.init (increment : Nat → Nat) (storage : Option String) :
    TaskManager.Completion TaskManager :=
  TaskManager.loadTasksFromStorage increment { tasks := [], nextId := 1, storage := storage }

/-- The method `saveTasksToStorage`: writes `JSON.stringify(this.tasks)` under the key. -/
def TaskManager.saveTasksToStorage (tm : TaskManager) : TaskManager :=
  { tm with storage := some (TaskManager.stringifyTasks tm.tasks) }

namespace TaskManager

/-! ## Mutations -/

/-- What `handleSubmit` reports to the user. -/
inductive Feedback
  | taskAdded       -- showSuccessMessage('Task added successfully!')
  | taskUpdated     -- showSuccessMessage('Task updated successfully!')
  | nameExists      -- showErrorMessage('Task name already exists!')
  | nothing         -- edit branch, no task has the edited id: no message
deriving DecidableEq, Repr

end TaskManager

/-- The method `handleSubmit(event)`. `editId` is `form.dataset.editId` (`none` when
the attribute is absent), `form` the submitted fields and `now` the value of
`new Date().toISOString()`; `increment` is the addition in `this.nextId++`. -/
def TaskManager.handleSubmit (increment : Nat → Nat) (toLowerCase : String → String)
    (tm : TaskManager)
    (editId : Option String) (form : TaskManager.FormData) (now : String) :
    TaskManager.Feedback × TaskManager :=
  let taskName := TaskManager.trim form.taskName
  match editId.filter (fun e => e ≠ "") with
  | some e =>
    -- Edit existing task
    let taskIndex := tm.tasks.findIdx (fun t => decide (TaskManager.parseInt e = some (t.id : Int)))
    if h : taskIndex < tm.tasks.length then
      -- Check for duplicate task name (excluding current task)
      if tm.tasks.any (fun task => decide (TaskManager.parseInt e ≠ some (task.id : Int)) &&
          toLowerCase task.taskName == toLowerCase taskName) then
        (.nameExists, tm)
      else
        let old := tm.tasks.get ⟨taskIndex, h⟩
        let task : TaskManager.Task :=
          { old with
            taskName := taskName
            assigneeName := TaskManager.trim form.assigneeName
            teamName := TaskManager.trim form.teamName
            status := form.status }
        let tm1 := { tm with tasks := tm.tasks.set taskIndex task }
        (.taskUpdated, tm1.saveTasksToStorage)
    else (.nothing, tm)
  | none =>
    -- Add new task
    -- Check for duplicate task name
    if tm.tasks.any (fun task => toLowerCase task.taskName == toLowerCase taskName) then
      (.nameExists, tm)
    else
      let task : TaskManager.Task :=
        { id := tm.nextId
          taskName := taskName
          assigneeName := TaskManager.trim form.assigneeName
          teamName := TaskManager.trim form.teamName
          status := form.status
          createdAt := now }
      let tm1 := { tm with nextId := increment tm.nextId, tasks := tm.tasks ++ [task] }
      (.taskAdded, tm1.saveTasksToStorage)

/-- The method `deleteTask(taskId)`; `confirmed` is the answer of the `confirm` dialog. -/
def TaskManager.deleteTask (tm : TaskManager) (taskId : Nat) (confirmed : Bool) : TaskManager :=
  if confirmed then
    let tm1 := { tm with tasks := tm.tasks.filter (fun t => t.id ≠ taskId) }
    tm1.saveTasksToStorage
  else tm

/-! ## Runs of the store -/

namespace TaskManager

/-- One call into the store. A submission without `editId` is the spec's
`create`, one with an `editId` its `update`; `delete` is `deleteTask`. -/
inductive Op
  | submit (editId : Option String) (form : FormData) (now : String)
  | delete (taskId : Nat) (confirmed : Bool)
deriving DecidableEq, Repr

/-- The store a freshly constructed `TaskManager` holds when nothing is persisted. -/
def emptyStore : TaskManager := { tasks := [], nextId := 1, storage := none }

/-- The store after one call. -/
def step (increment : Nat → Nat) (toLowerCase : String → String) (tm : TaskManager) :
    Op → TaskManager
  | .submit editId form now => (tm.handleSubmit increment toLowerCase editId form now).2
  | .delete taskId confirmed => tm.deleteTask taskId confirmed

/-- The store after a sequence of calls, first call first. -/
def run (increment : Nat → Nat) (toLowerCase : String → String) (tm : TaskManager) :
    List Op → TaskManager
  | [] => tm
  | op :: ops => run increment toLowerCase (step increment toLowerCase tm op) ops

/-- The id a call hands out: that of the task at the end of the sequence after a
submission answered with "Task added", nothing for every other call. -/
def createdId (increment : Nat → Nat) (toLowerCase : String → String) (tm : TaskManager) :
    Op → Option Nat
  | .submit editId form now =>
    if (tm.handleSubmit increment toLowerCase editId form now).1 = .taskAdded then
      (tm.handleSubmit increment toLowerCase editId form now).2.tasks.getLast?.map
        (fun t => t.id)
    else none
  | .delete _ _ => none

/-- The ids handed out along a sequence of calls, oldest first; the ids of tasks
deleted later stay in the list. -/
def assignedIds (increment : Nat → Nat) (toLowerCase : String → String) (tm : TaskManager) :
    List Op → List Nat
  | [] => []
  | op :: ops =>
    (createdId increment toLowerCase tm op).toList ++
      assignedIds increment toLowerCase (step increment toLowerCase tm op) ops

/-- Two creates, used in the worked examples. -/
def exampleOps : List Op :=
  [.submit none ⟨" Alpha ", "Ann", "Core", "todo"⟩ "2024-05-01T10:00:00.000Z",
   .submit none ⟨"Beta", "Bob", "Web", "doing"⟩ "2024-05-02T10:00:00.000Z"]

/-- Two creates and the deletion of the second task. -/
def reuseOps : List Op :=
  [.submit none ⟨"a", "", "", "todo"⟩ "2024-05-01T10:00:00.000Z",
   .submit none ⟨"b", "", "", "todo"⟩ "2024-05-02T10:00:00.000Z",
   .delete 2 true]

/-- A task whose id is `2 ^ 53 - 1`, the largest integer below which doubles are
exact; a blob holding it loads with `nextId = 2 ^ 53`. -/
def largeIdTask : Task :=
  ⟨9007199254740991, "a", "", "", "todo", "2024-05-01T10:00:00.000Z"⟩

/-- The store a page holds after loading the blob of `largeIdTask`. -/
def saturatedStore : TaskManager :=
  { tasks := [largeIdTask], nextId := 9007199254740992,
    storage := some (stringifyTasks [largeIdTask]) }

/-- The invariant the mutations keep: every id is below `nextId`, no two tasks
share an id (I1), no two tasks have the same name up to case (I2), and every
stored name is trimmed. -/
structure Inv (toLowerCase : String → String) (tm : TaskManager) : Prop where
  ids_lt : ∀ t ∈ tm.tasks, t.id < tm.nextId
  ids_nodup : (tm.tasks.map (fun t => t.id)).Nodup
  names : tm.tasks.Pairwise (fun a b => toLowerCase a.taskName ≠ toLowerCase b.taskName)
  trimmed : ∀ t ∈ tm.tasks, trim t.taskName = t.taskName

end TaskManager

/-! ## Lemmas on the host functions -/

namespace TaskManager

/-! trim -/

theorem trimChars_eq (cs : List Char) :
    trimChars cs = (cs.dropWhile isStrWhiteSpaceChar).rdropWhile isStrWhiteSpaceChar := rfl

theorem dropWhile_rdropWhile_of_head {α : Type} (p : α → Bool) (l : List α)
    (h : ∀ a ∈ l.head?, p a = false) : (l.rdropWhile p).dropWhile p = l.rdropWhile p := by
  cases l with
  | nil => simp
  | cons a t =>
    have ha : p a = false := h a (by simp)
    have hpre : (a :: t).rdropWhile p <+: a :: t := List.rdropWhile_prefix p _
    have hne : (a :: t).rdropWhile p ≠ [] := by
      intro hnil
      rw [List.rdropWhile_eq_nil_iff] at hnil
      have := hnil a (by simp)
      simp [ha] at this
    obtain ⟨s, hs⟩ := hpre
    cases hr : (a :: t).rdropWhile p with
    | nil => exact absurd hr hne
    | cons b u =>
      rw [hr] at hs
      simp only [List.cons_append, List.cons.injEq] at hs
      rw [← hs.1] at ha
      simp [List.dropWhile_cons, ha]

theorem dropWhile_head_false {α : Type} (p : α → Bool) (l : List α) :
    ∀ a ∈ (l.dropWhile p).head?, p a = false := by
  intro a ha
  induction l with
  | nil => simp at ha
  | cons b t ih =>
    rw [List.dropWhile_cons] at ha
    split at ha
    · exact ih ha
    · simp at ha; subst ha; simp_all

theorem trimChars_idem (cs : List Char) : trimChars (trimChars cs) = trimChars cs := by
  rw [trimChars_eq, trimChars_eq,
    dropWhile_rdropWhile_of_head _ _ (dropWhile_head_false _ _), List.rdropWhile_idempotent]

theorem trim_idem (s : String) : trim (trim s) = trim s := by
  simp [trim, trimChars_idem]

/-! decimal digits -/

theorem digitValue_digitChar (v : Nat) (hv : v < 10) : digitValue 10 (Nat.digitChar v) = some v := by
  interval_cases v <;> rfl

theorem digitChar_not_space (v : Nat) (hv : v < 10) : isStrWhiteSpaceChar (Nat.digitChar v) = false := by
  interval_cases v <;> rfl

theorem digitsToNat_append (r : Nat) (vs : List Nat) (d : Nat) :
    digitsToNat r (vs ++ [d]) = digitsToNat r vs * r + d := by
  simp [digitsToNat, List.foldl_append]

theorem toDigitsCore_spec (fuel : Nat) : ∀ (n : Nat) (ds : List Char), n < fuel →
    ∃ vs : List Nat, vs ≠ [] ∧ (∀ v ∈ vs, v < 10) ∧
      Nat.toDigitsCore 10 fuel n ds = vs.map Nat.digitChar ++ ds ∧
      digitsToNat 10 vs = n ∧ (vs.head? = some 0 → vs = [0]) := by
  induction fuel with
  | zero => intro n ds h; omega
  | succ fuel ih =>
    intro n ds h
    rw [Nat.toDigitsCore]
    by_cases h0 : n / 10 = 0
    · refine ⟨[n % 10], by simp, ?_, by simp [h0], ?_, by simp⟩
      · intro v hv; simp at hv; omega
      · simp [digitsToNat]; omega
    · obtain ⟨vs, hne, hlt, heq, hval, hhead⟩ := ih (n / 10) (Nat.digitChar (n % 10) :: ds) (by omega)
      refine ⟨vs ++ [n % 10], by simp, ?_, ?_, ?_, ?_⟩
      · intro v hv
        rcases List.mem_append.1 hv with hv | hv
        · exact hlt v hv
        · simp at hv; omega
      · simp [h0, heq]
      · rw [digitsToNat_append, hval]; omega
      · intro hh
        exfalso
        cases vs with
        | nil => exact hne rfl
        | cons a t =>
          simp at hh
          have := hhead (by simp [hh])
          rw [this] at hval
          simp [digitsToNat] at hval
          omega

theorem toDigits_spec (n : Nat) :
    ∃ vs : List Nat, vs ≠ [] ∧ (∀ v ∈ vs, v < 10) ∧
      Nat.toDigits 10 n = vs.map Nat.digitChar ∧
      digitsToNat 10 vs = n ∧ (vs.head? = some 0 → vs = [0]) := by
  obtain ⟨vs, h1, h2, h3, h4, h5⟩ := toDigitsCore_spec (n + 1) n [] (by omega)
  exact ⟨vs, h1, h2, by simpa [Nat.toDigits] using h3, h4, h5⟩

theorem takeDigits_map_digitChar (vs : List Nat) (hlt : ∀ v ∈ vs, v < 10) (rest : List Char)
    (hrest : ∀ c ∈ rest.head?, digitValue 10 c = none) :
    takeDigits 10 (vs.map Nat.digitChar ++ rest) = (vs, rest) := by
  induction vs with
  | nil =>
    cases rest with
    | nil => rfl
    | cons c r =>
      have := hrest c (by simp)
      simp [takeDigits, this]
  | cons v t ih =>
    have hv := digitValue_digitChar v (hlt v (by simp))
    have := ih (fun w hw => hlt w (by simp [hw]))
    simp [takeDigits, hv, this]

theorem digitChar_not_sign (v : Nat) (hv : v < 10) :
    Nat.digitChar v ≠ '-' ∧ Nat.digitChar v ≠ '+' ∧ Nat.digitChar v ≠ 'x' ∧
      Nat.digitChar v ≠ 'X' := by
  interval_cases v <;> decide

theorem parseInt_digits (vs : List Nat) (hne : vs ≠ []) (hlt : ∀ v ∈ vs, v < 10) :
    parseInt ⟨vs.map Nat.digitChar⟩ = some (digitsToNat 10 vs : Int) := by
  cases vs with
  | nil => exact absurd rfl hne
  | cons v t =>
    have hv : v < 10 := hlt v (by simp)
    obtain ⟨h1, h2, h3, h4⟩ := digitChar_not_sign v hv
    have hsp := digitChar_not_space v hv
    have hhex : ((Nat.digitChar v :: t.map Nat.digitChar).take 2 == ['0', 'x'] ||
        (Nat.digitChar v :: t.map Nat.digitChar).take 2 == ['0', 'X']) = false := by
      cases t with
      | nil => simp
      | cons w u =>
        obtain ⟨_, _, h3', h4'⟩ := digitChar_not_sign w (hlt w (by simp))
        simp [h3', h4']
    have htake := takeDigits_map_digitChar (v :: t) hlt [] (by simp)
    simp only [List.append_nil, List.map_cons] at htake
    have hm : (some (Nat.digitChar v) == some '-') = false := by simp [h1]
    have hp : (some (Nat.digitChar v) == some '+') = false := by simp [h2]
    simp only [parseInt, List.map_cons, List.dropWhile_cons, hsp, List.head?_cons, hm, hp,
      Bool.or_self, Bool.false_eq_true, if_false, hhex, htake, List.isEmpty_cons]

theorem parseInt_numberToString (n : Nat) : parseInt (numberToString n) = some (n : Int) := by
  obtain ⟨vs, hne, hlt, heq, hval, _⟩ := toDigits_spec n
  rw [numberToString, heq, parseInt_digits vs hne hlt, hval]

theorem numberToString_ne_empty (n : Nat) : numberToString n ≠ "" := by
  obtain ⟨vs, hne, _, heq, _, _⟩ := toDigits_spec n
  intro h
  have hd := congrArg String.data h
  rw [numberToString, heq] at hd
  cases vs with
  | nil => exact hne rfl
  | cons v t => simp at hd

/-! ## Lemmas on `JSON.parse` after `JSON.stringify` -/

theorem parseStringChars_escape (f : Nat) (ch : Char) (esc tail : List Char)
    (h : parseEscape (esc ++ tail) = .ok ch tail) :
    parseStringChars (f + 1) (backslash :: (esc ++ tail)) =
      (parseStringChars f tail).map (List.cons ch) := by
  rw [parseStringChars, if_neg (by decide), if_pos rfl, h]

theorem parseEscape_control (n : Nat) (hn : n < 0x20) (tail : List Char) :
    parseEscape (['u', '0', '0', Nat.digitChar (n / 16), Nat.digitChar (n % 16)] ++ tail) =
      .ok (Char.ofNat n) tail := by
  interval_cases n <;> rfl

theorem toNat_eq_imp (c : Char) (n : Nat) (h : c.toNat = n) : c = Char.ofNat n := by
  rw [← h, Char.ofNat_toNat]

theorem parseStringChars_quoteJSONChar (f : Nat) (c : Char) (tail : List Char) :
    parseStringChars (f + 1) (quoteJSONChar c ++ tail) =
      (parseStringChars f tail).map (List.cons c) := by
  by_cases h8 : c.toNat = 0x08
  · rw [toNat_eq_imp c _ h8]
    exact parseStringChars_escape f _ ['b'] tail rfl
  by_cases h9 : c.toNat = 0x09
  · rw [toNat_eq_imp c _ h9]
    exact parseStringChars_escape f _ ['t'] tail rfl
  by_cases hA : c.toNat = 0x0A
  · rw [toNat_eq_imp c _ hA]
    exact parseStringChars_escape f _ ['n'] tail rfl
  by_cases hC : c.toNat = 0x0C
  · rw [toNat_eq_imp c _ hC]
    exact parseStringChars_escape f _ ['f'] tail rfl
  by_cases hD : c.toNat = 0x0D
  · rw [toNat_eq_imp c _ hD]
    exact parseStringChars_escape f _ ['r'] tail rfl
  by_cases hQ : c.toNat = 0x22
  · rw [toNat_eq_imp c _ hQ]
    exact parseStringChars_escape f _ [dquote] tail rfl
  by_cases hB : c.toNat = 0x5C
  · rw [toNat_eq_imp c _ hB]
    exact parseStringChars_escape f _ [backslash] tail rfl
  by_cases hlt : c.toNat < 0x20
  · have hq : quoteJSONChar c = backslash ::
        ['u', '0', '0', Nat.digitChar (c.toNat / 16), Nat.digitChar (c.toNat % 16)] := by
      simp only [quoteJSONChar, if_neg h8, if_neg h9, if_neg hA, if_neg hC, if_neg hD, if_neg hQ,
        if_neg hB, if_pos hlt]
    rw [hq]
    have := parseStringChars_escape f (Char.ofNat c.toNat)
      ['u', '0', '0', Nat.digitChar (c.toNat / 16), Nat.digitChar (c.toNat % 16)] tail
      (parseEscape_control c.toNat hlt tail)
    rw [Char.ofNat_toNat] at this
    exact this
  · have hq : quoteJSONChar c = [c] := by
      simp only [quoteJSONChar, if_neg h8, if_neg h9, if_neg hA, if_neg hC, if_neg hD, if_neg hQ,
        if_neg hB, if_neg hlt]
    have hnq : c ≠ dquote := fun h => hQ (by rw [h]; rfl)
    have hnb : c ≠ backslash := fun h => hB (by rw [h]; rfl)
    rw [hq, List.singleton_append, parseStringChars, if_neg hnq, if_neg hnb, if_neg hlt]

theorem length_le_quoteJSONChars (cs : List Char) : cs.length ≤ (quoteJSONChars cs).length := by
  induction cs with
  | nil => simp [quoteJSONChars]
  | cons c cs ih =>
    have h1 : 1 ≤ (quoteJSONChar c).length := by
      unfold quoteJSONChar
      repeat' split
      all_goals simp
    simp only [quoteJSONChars, List.length_append, List.length_cons]
    omega

theorem parseStringChars_quoteJSONChars (cs : List Char) :
    ∀ (f : Nat) (rest : List Char), cs.length < f →
      parseStringChars f (quoteJSONChars cs ++ dquote :: rest) = .ok cs rest := by
  induction cs with
  | nil =>
    intro f rest hf
    obtain ⟨g, rfl⟩ : ∃ g, f = g + 1 := ⟨f - 1, by simp at hf; omega⟩
    simp only [quoteJSONChars, List.nil_append]
    rw [parseStringChars, if_pos rfl]
  | cons c cs ih =>
    intro f rest hf
    obtain ⟨g, rfl⟩ : ∃ g, f = g + 1 := ⟨f - 1, by simp at hf; omega⟩
    simp only [quoteJSONChars, List.append_assoc]
    rw [parseStringChars_quoteJSONChar, ih g rest (by simpa using hf)]
    rfl

theorem parseString_quoteJSONChars (cs rest : List Char) :
    parseString (quoteJSONChars cs ++ dquote :: rest) = .ok cs rest := by
  unfold parseString
  apply parseStringChars_quoteJSONChars
  have := length_le_quoteJSONChars cs
  simp only [List.length_append, List.length_cons]
  omega

theorem digitChar_facts (v : Nat) (hv : v < 10) :
    Nat.digitChar v ≠ '-' ∧ (Nat.digitChar v = '0' → v = 0) ∧
      isJSONWhiteSpace (Nat.digitChar v) = false ∧ Nat.digitChar v ≠ dquote ∧
      Nat.digitChar v ≠ '[' ∧ Nat.digitChar v ≠ '{' ∧ Nat.digitChar v ≠ 't' ∧
      Nat.digitChar v ≠ 'f' ∧ Nat.digitChar v ≠ 'n' := by
  interval_cases v <;> decide

theorem parseNumber_zero (rest : List Char) :
    parseNumber ('0' :: ',' :: rest) = .ok (.num 0 0) (',' :: rest) := by
  have h1 : (some '0' == some '-') = false := by decide
  have h2 : (some '0' == some '0') = true := by decide
  have hdot : (some ',' == some '.') = false := by decide
  have he : (some ',' == some 'e') = false := by decide
  have hE : (some ',' == some 'E') = false := by decide
  simp only [parseNumber, List.head?_cons, h1, h2, hdot, he, hE, Bool.false_eq_true, if_false,
    if_true, List.tail_cons, Bool.false_and, Bool.or_self, List.isEmpty_cons]
  simp [digitsToNat]

theorem parseNumber_digits (vs : List Nat) (hne : vs ≠ []) (hlt : ∀ v ∈ vs, v < 10)
    (hhead : vs.head? = some 0 → vs = [0]) (rest : List Char) :
    parseNumber (vs.map Nat.digitChar ++ ',' :: rest) =
      .ok (.num (digitsToNat 10 vs : Nat) 0) (',' :: rest) := by
  cases vs with
  | nil => exact absurd rfl hne
  | cons v t =>
    have hv : v < 10 := hlt v (by simp)
    obtain ⟨hm, hz, _⟩ := digitChar_facts v hv
    by_cases h0 : v = 0
    · subst h0
      have := hhead rfl
      simp only [List.cons.injEq, true_and] at this
      subst this
      exact parseNumber_zero rest
    · have htake := takeDigits_map_digitChar (v :: t) hlt (',' :: rest) (by
        intro c hc
        simp at hc
        subst hc
        rfl)
      have hm' : (some (Nat.digitChar v) == some '-') = false := by simp [hm]
      have hz' : (some (Nat.digitChar v) == some '0') = false := by
        simp only [beq_eq_false_iff_ne, ne_eq, Option.some.injEq]
        exact fun h => h0 (hz h)
      simp only [List.map_cons, List.cons_append] at htake ⊢
      have hdot : (some ',' == some '.') = false := by decide
      have he : (some ',' == some 'e') = false := by decide
      have hE : (some ',' == some 'E') = false := by decide
      simp only [parseNumber, List.head?_cons, hm', hz', Bool.false_eq_true, if_false, htake,
        hdot, he, hE, Bool.false_and, Bool.or_self, List.isEmpty_cons, List.append_nil]
      simp [digitsToNat]

theorem skipWhiteSpace_cons_of_not (c : Char) (cs : List Char)
    (h : isJSONWhiteSpace c = false) : skipWhiteSpace (c :: cs) = c :: cs := by
  simp [skipWhiteSpace, List.dropWhile_cons, h]

theorem quoteJSONString_append (s : String) (rest : List Char) :
    quoteJSONString s ++ rest = dquote :: (quoteJSONChars s.data ++ dquote :: rest) := by
  simp [quoteJSONString]

theorem parseValue_string (f : Nat) (s : String) (rest : List Char) :
    parseValue (f + 1) (quoteJSONString s ++ rest) = .ok (.str s) rest := by
  rw [quoteJSONString_append, parseValue, skipWhiteSpace_cons_of_not _ _ (by decide)]
  simp only [if_pos, parseString_quoteJSONChars, ParseResult.map]

theorem parseValue_number (f n : Nat) (rest : List Char) :
    parseValue (f + 1) ((numberToString n).data ++ ',' :: rest) =
      .ok (.num (n : Int) 0) (',' :: rest) := by
  obtain ⟨vs, hne, hlt, heq, hval, hhead⟩ := toDigits_spec n
  have hnum := parseNumber_digits vs hne hlt hhead rest
  rw [hval] at hnum
  simp only [numberToString, heq]
  cases vs with
  | nil => exact absurd rfl hne
  | cons v t =>
    obtain ⟨hm, _, hws, hq, hb, hc, ht, hf, hn⟩ := digitChar_facts v (hlt v (by simp))
    have hd : (digitValue 10 (Nat.digitChar v)).isSome = true := by
      rw [digitValue_digitChar v (hlt v (by simp))]; rfl
    simp only [List.map_cons, List.cons_append] at hnum ⊢
    rw [parseValue, skipWhiteSpace_cons_of_not _ _ hws]
    simp only [if_neg hq, if_neg hb, if_neg hc, if_neg ht, if_neg hf, if_neg hn, hd, or_true,
      if_true, hnum]

theorem stringifyMember_append (key : String) (value rest : List Char) :
    stringifyMember key value ++ rest =
      dquote :: (quoteJSONChars key.data ++ dquote :: ':' :: (value ++ rest)) := by
  simp [stringifyMember, quoteJSONString]

theorem parseMembers_comma (pv : List Char → ParseResult Json) (f : Nat) (key : String)
    (value rest : List Char) (v : Json)
    (hpv : pv (value ++ ',' :: rest) = .ok v (',' :: rest)) :
    parseMembers pv (f + 1) (stringifyMember key value ++ ',' :: rest) =
      (parseMembers pv f rest).map (List.cons (key, v)) := by
  rw [stringifyMember_append, parseMembers, skipWhiteSpace_cons_of_not _ _ (by decide)]
  simp only [if_pos, parseString_quoteJSONChars,
    skipWhiteSpace_cons_of_not ':' _ (by decide), hpv,
    skipWhiteSpace_cons_of_not ',' _ (by decide)]

theorem parseMembers_last (pv : List Char → ParseResult Json) (f : Nat) (key : String)
    (value rest : List Char) (v : Json)
    (hpv : pv (value ++ '}' :: rest) = .ok v ('}' :: rest)) :
    parseMembers pv (f + 1) (stringifyMember key value ++ '}' :: rest) =
      .ok [(key, v)] rest := by
  rw [stringifyMember_append, parseMembers, skipWhiteSpace_cons_of_not _ _ (by decide)]
  simp only [if_pos, parseString_quoteJSONChars,
    skipWhiteSpace_cons_of_not ':' _ (by decide), hpv,
    skipWhiteSpace_cons_of_not '}' _ (by decide)]
  rfl

theorem stringifyTask_append (t : Task) (rest : List Char) :
    stringifyTask t ++ rest =
      '{' :: (stringifyMember "id" (numberToString t.id).data ++ ',' ::
        (stringifyMember "taskName" (quoteJSONString t.taskName) ++ ',' ::
        (stringifyMember "assigneeName" (quoteJSONString t.assigneeName) ++ ',' ::
        (stringifyMember "teamName" (quoteJSONString t.teamName) ++ ',' ::
        (stringifyMember "status" (quoteJSONString t.status) ++ ',' ::
        (stringifyMember "createdAt" (quoteJSONString t.createdAt) ++ '}' :: rest)))))) := by
  simp [stringifyTask, joinComma]

theorem parseValue_stringifyTask (f : Nat) (t : Task) (rest : List Char) :
    parseValue (f + 8) (stringifyTask t ++ rest) = .ok t.toJson rest := by
  have h1 : ('{' : Char) ≠ dquote := by decide
  have h2 : ('{' : Char) ≠ '[' := by decide
  have h3 : dquote ≠ '}' := by decide
  rw [stringifyTask_append, parseValue, skipWhiteSpace_cons_of_not _ _ (by decide)]
  simp only []
  rw [if_neg h1, if_neg h2, if_pos trivial, stringifyMember_append,
    skipWhiteSpace_cons_of_not _ _ (by decide)]
  simp only []
  rw [if_neg h3, ← stringifyMember_append]
  rw [parseMembers_comma _ _ _ _ _ _ (parseValue_number _ _ _),
    parseMembers_comma _ _ _ _ _ _ (parseValue_string _ _ _),
    parseMembers_comma _ _ _ _ _ _ (parseValue_string _ _ _),
    parseMembers_comma _ _ _ _ _ _ (parseValue_string _ _ _),
    parseMembers_comma _ _ _ _ _ _ (parseValue_string _ _ _),
    parseMembers_last _ _ _ _ _ _ (parseValue_string _ _ _)]
  rfl

theorem parseElements_tasks (pv : List Char → ParseResult Json) (ts : List Task)
    (hpv : ∀ (t : Task) (rest : List Char), pv (stringifyTask t ++ rest) = .ok t.toJson rest) :
    ∀ (t : Task) (f : Nat) (rest : List Char), ts.length < f →
      parseElements pv f (joinComma ((t :: ts).map stringifyTask) ++ ']' :: rest) =
        .ok ((t :: ts).map Task.toJson) rest := by
  induction ts with
  | nil =>
    intro t f rest hf
    obtain ⟨g, rfl⟩ : ∃ g, f = g + 1 := ⟨f - 1, by simp at hf; omega⟩
    simp only [List.map_cons, List.map_nil, joinComma]
    have h1 : (']' : Char) ≠ ',' := by decide
    rw [parseElements, hpv]
    simp only []
    rw [skipWhiteSpace_cons_of_not ']' _ (by decide)]
    simp only []
    rw [if_neg h1, if_pos trivial]
  | cons u ts ih =>
    intro t f rest hf
    obtain ⟨g, rfl⟩ : ∃ g, f = g + 1 := ⟨f - 1, by simp at hf; omega⟩
    have hrec := ih u g rest (by simpa using hf)
    simp only [List.map_cons, joinComma, List.append_assoc, List.cons_append] at hrec ⊢
    rw [parseElements, hpv]
    simp only []
    rw [skipWhiteSpace_cons_of_not ',' _ (by decide)]
    simp only []
    rw [if_pos trivial, hrec]
    rfl

theorem length_stringifyTask (t : Task) : 8 ≤ (stringifyTask t).length := by
  simp only [stringifyTask, joinComma, stringifyMember, quoteJSONString, List.length_cons,
    List.length_append, List.length_nil]
  omega

theorem length_joinComma_tasks (ts : List Task) :
    8 * ts.length ≤ (joinComma (ts.map stringifyTask)).length := by
  induction ts with
  | nil => simp
  | cons t ts ih =>
    have ht := length_stringifyTask t
    cases ts with
    | nil => simpa [joinComma] using ht
    | cons u us =>
      simp only [List.map_cons, joinComma, List.length_append, List.length_cons] at ih ⊢
      omega

theorem joinComma_tasks_head (t : Task) (ts : List Task) (tail : List Char) :
    ∃ body, joinComma ((t :: ts).map stringifyTask) ++ tail = '{' :: body := by
  cases ts with
  | nil => exact ⟨_, by simp [joinComma, stringifyTask]; rfl⟩
  | cons u us => exact ⟨_, by simp [joinComma, stringifyTask]; rfl⟩

theorem JSON_parse_stringifyTasks (ts : List Task) :
    JSON.parse (stringifyTasks ts) = .normal (.arr (ts.map Task.toJson)) := by
  cases ts with
  | nil => rfl
  | cons t ts =>
    have hlen := length_joinComma_tasks (t :: ts)
    obtain ⟨body, hbody⟩ := joinComma_tasks_head t ts [']']
    obtain ⟨f, hf⟩ : ∃ f, (stringifyTasks (t :: ts)).length = f + 8 := by
      refine ⟨(stringifyTasks (t :: ts)).length - 8, ?_⟩
      simp only [stringifyTasks, String.length, List.length_cons, List.length_append,
        List.length_nil] at hlen ⊢
      omega
    have hts : ts.length < f + 8 := by
      simp only [stringifyTasks, String.length, List.length_cons, List.length_append,
        List.length_nil] at hlen hf
      omega
    have h1 : ('[' : Char) ≠ dquote := by decide
    have h2 : ('{' : Char) ≠ ']' := by decide
    have hel := parseElements_tasks (parseValue (f + 8)) ts
      (fun u rest => parseValue_stringifyTask f u rest) t (f + 8) [] hts
    rw [hbody] at hel
    unfold JSON.parse
    rw [hf]
    simp only [stringifyTasks, hbody]
    rw [parseValue, skipWhiteSpace_cons_of_not _ _ (by decide)]
    simp only []
    rw [if_neg h1, if_pos trivial, skipWhiteSpace_cons_of_not _ _ (by decide)]
    simp only []
    rw [if_neg h2, hel]
    rfl

theorem toTask?_toJson (t : Task) : t.toJson.toTask? = some t := by
  simp [Task.toJson, Json.toTask?, Json.toId?]

theorem toTasks?_toJson (ts : List Task) : toTasks? (ts.map Task.toJson) = some ts := by
  induction ts with
  | nil => rfl
  | cons t ts ih => simp [toTasks?, toTask?_toJson, ih]

theorem any_isNull_toJson (ts : List Task) :
    (ts.map Task.toJson).any Json.isNull = false := by
  induction ts with
  | nil => rfl
  | cons t ts ih => simp [Task.toJson, Json.isNull] at ih ⊢

theorem stringifyTasks_ne_empty (ts : List Task) : stringifyTasks ts ≠ "" := by
  intro h
  have := congrArg String.data h
  simp [stringifyTasks] at this

theorem loadTasksFromStorage_stringifyTasks (inc : Nat → Nat) (tm : TaskManager)
    (ts : List Task) (h : tm.storage = some (stringifyTasks ts)) :
    tm.loadTasksFromStorage inc =
      .normal { tasks := ts, nextId := inc ((ts.map (fun t => t.id)).foldr max 0),
                storage := some (stringifyTasks ts) } := by
  simp only [TaskManager.loadTasksFromStorage, h, if_neg (stringifyTasks_ne_empty ts),
    JSON_parse_stringifyTasks, any_isNull_toJson, toTasks?_toJson, Bool.false_eq_true, if_false]

/-! ## Lemmas on the mutations -/

theorem handleSubmit_add (inc : Nat → Nat) (lower : String → String) (tm : TaskManager) (form : FormData)
    (now : String) :
    tm.handleSubmit inc lower none form now =
      if tm.tasks.any (fun task => lower task.taskName == lower (trim form.taskName)) then
        (.nameExists, tm)
      else
        (.taskAdded,
          { tasks := tm.tasks ++ [⟨tm.nextId, trim form.taskName, trim form.assigneeName,
              trim form.teamName, form.status, now⟩]
            nextId := inc tm.nextId
            storage := some (stringifyTasks (tm.tasks ++ [⟨tm.nextId, trim form.taskName,
              trim form.assigneeName, trim form.teamName, form.status, now⟩])) }) := by
  simp only [TaskManager.handleSubmit, Option.filter, TaskManager.saveTasksToStorage]

theorem any_lower_iff (lower : String → String) (tasks : List Task) (name : String) :
    tasks.any (fun task => lower task.taskName == lower name) = true ↔
      ∃ t ∈ tasks, lower t.taskName = lower name := by
  simp [List.any_eq_true]

theorem handleSubmit_of_filter_none (inc : Nat → Nat) (lower : String → String) (tm : TaskManager)
    (editId : Option String) (form : FormData) (now : String)
    (h : editId.filter (fun e => e ≠ "") = none) :
    tm.handleSubmit inc lower editId form now = tm.handleSubmit inc lower none form now := by
  have h0 : (none : Option String).filter (fun e => e ≠ "") = none := rfl
  simp only [TaskManager.handleSubmit, h, h0]

theorem handleSubmit_of_filter_some (inc : Nat → Nat) (lower : String → String) (tm : TaskManager)
    (editId : Option String) (form : FormData) (now : String) (e : String)
    (h : editId.filter (fun e => e ≠ "") = some e) :
    tm.handleSubmit inc lower editId form now =
      if hi : tm.tasks.findIdx (fun t => decide (parseInt e = some (t.id : Int)))
          < tm.tasks.length then
        if tm.tasks.any (fun task => decide (parseInt e ≠ some (task.id : Int)) &&
            lower task.taskName == lower (trim form.taskName)) then
          (.nameExists, tm)
        else
          (.taskUpdated,
            { tasks := tm.tasks.set
                (tm.tasks.findIdx (fun t => decide (parseInt e = some (t.id : Int))))
                ⟨(tm.tasks.get ⟨_, hi⟩).id, trim form.taskName, trim form.assigneeName,
                  trim form.teamName, form.status, (tm.tasks.get ⟨_, hi⟩).createdAt⟩
              nextId := tm.nextId
              storage := some (stringifyTasks (tm.tasks.set
                (tm.tasks.findIdx (fun t => decide (parseInt e = some (t.id : Int))))
                ⟨(tm.tasks.get ⟨_, hi⟩).id, trim form.taskName, trim form.assigneeName,
                  trim form.teamName, form.status, (tm.tasks.get ⟨_, hi⟩).createdAt⟩)) })
      else (.nothing, tm) := by
  simp only [TaskManager.handleSubmit, h, TaskManager.saveTasksToStorage]

theorem filter_editId_cases (editId : Option String) :
    editId.filter (fun e => e ≠ "") = none ∨
      ∃ e, e ≠ "" ∧ editId = some e ∧ editId.filter (fun e => e ≠ "") = some e := by
  cases editId with
  | none => left; rfl
  | some e =>
    by_cases he : e = ""
    · left; simp [Option.filter, he]
    · right; exact ⟨e, he, rfl, by simp [Option.filter, he]⟩

theorem deleteTask_true (tm : TaskManager) (taskId : Nat) :
    tm.deleteTask taskId true =
      { tasks := tm.tasks.filter (fun t => t.id ≠ taskId)
        nextId := tm.nextId
        storage := some (stringifyTasks (tm.tasks.filter (fun t => t.id ≠ taskId))) } := by
  simp [TaskManager.deleteTask, TaskManager.saveTasksToStorage]

theorem deleteTask_false (tm : TaskManager) (taskId : Nat) :
    tm.deleteTask taskId false = tm := by
  simp [TaskManager.deleteTask]

theorem pairwise_set_of_symm {α : Type} (R : α → α → Prop) (hsymm : ∀ a b, R a b → R b a)
    (l : List α) (i : Nat) (x : α) (hP : l.Pairwise R)
    (hx : ∀ j (hj : j < l.length), j ≠ i → R (l.get ⟨j, hj⟩) x) :
    (l.set i x).Pairwise R := by
  rw [List.pairwise_iff_getElem] at hP ⊢
  intro a b ha hb hab
  rw [List.length_set] at ha hb
  rw [List.getElem_set, List.getElem_set]
  by_cases hia : i = a
  · have hib : i ≠ b := by omega
    rw [if_pos hia, if_neg hib]
    exact hsymm _ _ (hx b hb (Ne.symm hib))
  · rw [if_neg hia]
    by_cases hib : i = b
    · rw [if_pos hib]
      exact hx a ha (Ne.symm hia)
    · rw [if_neg hib]
      exact hP a b ha hb hab

theorem map_id_set_self (tasks : List Task) (i : Nat) (hi : i < tasks.length) (t : Task)
    (ht : t.id = (tasks.get ⟨i, hi⟩).id) :
    (tasks.set i t).map (fun t => t.id) = tasks.map (fun t => t.id) := by
  apply List.ext_getElem
  · simp
  · intro n h1 h2
    simp only [List.getElem_map, List.getElem_set]
    split
    · rename_i h; subst h; simpa using ht
    · rfl

theorem inv_emptyStore (lower : String → String) : Inv lower emptyStore :=
  ⟨by simp [TaskManager.emptyStore], by simp [TaskManager.emptyStore],
    by simp [TaskManager.emptyStore], by simp [TaskManager.emptyStore]⟩

theorem any_add_false (lower : String → String) (tasks : List Task) (name : String)
    (h : ¬ tasks.any (fun task => lower task.taskName == lower name) = true) :
    ∀ t ∈ tasks, lower t.taskName ≠ lower name := by
  intro t ht heq
  exact h ((any_lower_iff lower tasks name).2 ⟨t, ht, heq⟩)

theorem inv_handleSubmit (inc : Nat → Nat) (hinc : ∀ n, n < inc n)
    (lower : String → String) (tm : TaskManager) (hI : Inv lower tm)
    (editId : Option String) (form : FormData) (now : String) :
    Inv lower (tm.handleSubmit inc lower editId form now).2 := by
  rcases filter_editId_cases editId with hnone | ⟨e, _, _, hsome⟩
  · rw [handleSubmit_of_filter_none _ _ _ _ _ _ hnone, handleSubmit_add]
    split
    · exact hI
    · rename_i hany
      have hfresh := any_add_false lower _ _ hany
      refine ⟨?_, ?_, ?_, ?_⟩
      · intro t ht
        rcases List.mem_append.1 ht with ht | ht
        · exact Nat.lt_trans (hI.ids_lt t ht) (hinc _)
        · simp at ht; subst ht; exact hinc _
      · simp only [List.map_append, List.map_cons, List.map_nil]
        rw [List.nodup_append]
        refine ⟨hI.ids_nodup, by simp, ?_⟩
        intro a ha hb
        simp only [List.mem_singleton] at hb
        obtain ⟨t, ht, rfl⟩ := List.mem_map.1 ha
        have := hI.ids_lt t ht
        omega
      · rw [List.pairwise_append]
        refine ⟨hI.names, by simp, ?_⟩
        intro a ha b hb
        simp only [List.mem_singleton] at hb
        subst hb
        exact hfresh a ha
      · intro t ht
        rcases List.mem_append.1 ht with ht | ht
        · exact hI.trimmed t ht
        · simp at ht; subst ht; exact trim_idem _
  · rw [handleSubmit_of_filter_some _ _ _ _ _ _ e hsome]
    split
    · rename_i hi
      split
      · exact hI
      · rename_i hany
        have hfound : parseInt e = some ((tm.tasks.get ⟨_, hi⟩).id : Int) := by
          have := List.findIdx_getElem (w := hi)
          simpa using this
        refine ⟨?_, ?_, ?_, ?_⟩
        · intro t ht
          rcases List.mem_or_eq_of_mem_set ht with ht | ht
          · exact hI.ids_lt t ht
          · subst ht
            exact hI.ids_lt (tm.tasks.get ⟨_, hi⟩) (List.get_mem _ _ _)
        · show ((tm.tasks.set _ _).map _).Nodup
          have hmap := map_id_set_self tm.tasks _ hi
            ⟨(tm.tasks.get ⟨_, hi⟩).id, trim form.taskName, trim form.assigneeName,
              trim form.teamName, form.status, (tm.tasks.get ⟨_, hi⟩).createdAt⟩ rfl
          rw [hmap]
          exact hI.ids_nodup
        · show (tm.tasks.set _ _).Pairwise _
          apply pairwise_set_of_symm _ (fun a b h => Ne.symm h) _ _ _ hI.names
          intro j hj hne
          show lower (tm.tasks.get ⟨j, hj⟩).taskName ≠ lower (trim form.taskName)
          intro heq
          apply hany
          rw [List.any_eq_true]
          refine ⟨tm.tasks.get ⟨j, hj⟩, List.get_mem _ _ _, ?_⟩
          have hid : (tm.tasks.get ⟨j, hj⟩).id ≠ (tm.tasks.get ⟨_, hi⟩).id := by
            intro hEq
            have hnd := hI.ids_nodup
            rw [List.nodup_iff_injective_get] at hnd
            have : (⟨j, (List.length_map _ _).symm ▸ hj⟩ :
                Fin (tm.tasks.map (fun t => t.id)).length) =
                ⟨_, (List.length_map _ _).symm ▸ hi⟩ := hnd (by simpa using hEq)
            exact hne (Fin.mk.inj this)
          simp only [Bool.and_eq_true, decide_eq_true_eq, beq_iff_eq]
          refine ⟨?_, heq⟩
          rw [hfound]
          intro hc
          exact hid (by exact_mod_cast (Option.some.inj hc).symm)
        · intro t ht
          rcases List.mem_or_eq_of_mem_set ht with ht | ht
          · exact hI.trimmed t ht
          · subst ht; exact trim_idem _
    · exact hI

theorem inv_deleteTask (lower : String → String) (tm : TaskManager) (hI : Inv lower tm)
    (taskId : Nat) (confirmed : Bool) : Inv lower (tm.deleteTask taskId confirmed) := by
  cases confirmed with
  | false => rw [deleteTask_false]; exact hI
  | true =>
    rw [deleteTask_true]
    refine ⟨?_, ?_, ?_, ?_⟩
    · intro t ht
      exact hI.ids_lt t (List.mem_of_mem_filter ht)
    · exact hI.ids_nodup.sublist ((List.filter_sublist _).map _)
    · exact hI.names.sublist (List.filter_sublist _)
    · intro t ht
      exact hI.trimmed t (List.mem_of_mem_filter ht)

theorem inv_step (inc : Nat → Nat) (hinc : ∀ n, n < inc n) (lower : String → String)
    (tm : TaskManager) (hI : Inv lower tm) (op : Op) :
    Inv lower (step inc lower tm op) := by
  cases op with
  | submit editId form now => exact inv_handleSubmit inc hinc lower tm hI editId form now
  | delete taskId confirmed => exact inv_deleteTask lower tm hI taskId confirmed

theorem inv_run (inc : Nat → Nat) (hinc : ∀ n, n < inc n) (lower : String → String)
    (ops : List Op) :
    ∀ tm, Inv lower tm → Inv lower (run inc lower tm ops) := by
  induction ops with
  | nil => intro tm h; exact h
  | cons op ops ih => intro tm h; exact ih _ (inv_step inc hinc lower tm h op)

/-! ids handed out -/

theorem nextId_le_step (inc : Nat → Nat) (hle : ∀ n, n ≤ inc n) (lower : String → String)
    (tm : TaskManager) (op : Op) :
    tm.nextId ≤ (step inc lower tm op).nextId := by
  cases op with
  | delete taskId confirmed =>
    cases confirmed
    · simp [step, deleteTask_false]
    · simp [step, deleteTask_true]
  | submit editId form now =>
    simp only [step]
    rcases filter_editId_cases editId with hnone | ⟨e, _, _, hsome⟩
    · rw [handleSubmit_of_filter_none _ _ _ _ _ _ hnone, handleSubmit_add]
      split
      · exact Nat.le_refl _
      · exact hle _
    · rw [handleSubmit_of_filter_some _ _ _ _ _ _ e hsome]
      split
      · split <;> simp
      · simp

theorem createdId_eq_some (inc : Nat → Nat) (lower : String → String) (tm : TaskManager) (op : Op) (i : Nat)
    (h : createdId inc lower tm op = some i) :
    i = tm.nextId ∧ (step inc lower tm op).nextId = inc tm.nextId ∧
      ∃ t, t.id = i ∧ (step inc lower tm op).tasks = tm.tasks ++ [t] := by
  cases op with
  | delete taskId confirmed => simp [createdId] at h
  | submit editId form now =>
    simp only [createdId, step] at h ⊢
    rcases filter_editId_cases editId with hnone | ⟨e, _, _, hsome⟩
    · rw [handleSubmit_of_filter_none _ _ _ _ _ _ hnone, handleSubmit_add] at h ⊢
      by_cases hany : (tm.tasks.any fun task =>
          lower task.taskName == lower (trim form.taskName)) = true
      · rw [if_pos hany] at h
        simp at h
      · rw [if_neg hany] at h ⊢
        simp at h
        exact ⟨h.symm, rfl, _, h, rfl⟩
    · rw [handleSubmit_of_filter_some _ _ _ _ _ _ e hsome] at h
      by_cases hi : tm.tasks.findIdx (fun t => decide (parseInt e = some (t.id : Int)))
          < tm.tasks.length
      · rw [dif_pos hi] at h
        by_cases hany : (tm.tasks.any fun task =>
            decide (parseInt e ≠ some (task.id : Int)) &&
              lower task.taskName == lower (trim form.taskName)) = true
        · rw [if_pos hany] at h
          simp at h
        · rw [if_neg hany] at h
          simp at h
      · rw [dif_neg hi] at h
        simp at h

theorem tasks_step_of_createdId_none (inc : Nat → Nat) (lower : String → String) (tm : TaskManager) (op : Op)
    (h : createdId inc lower tm op = none) :
    ∀ t ∈ (step inc lower tm op).tasks, t.id ∈ tm.tasks.map (fun t => t.id) := by
  cases op with
  | delete taskId confirmed =>
    intro t ht
    cases confirmed
    · simp only [step, deleteTask_false] at ht
      exact List.mem_map_of_mem _ ht
    · simp only [step, deleteTask_true] at ht
      exact List.mem_map_of_mem _ (List.mem_of_mem_filter ht)
  | submit editId form now =>
    simp only [createdId, step] at h ⊢
    rcases filter_editId_cases editId with hnone | ⟨e, _, _, hsome⟩
    · rw [handleSubmit_of_filter_none _ _ _ _ _ _ hnone, handleSubmit_add] at h ⊢
      by_cases hany : (tm.tasks.any fun task =>
          lower task.taskName == lower (trim form.taskName)) = true
      · rw [if_pos hany]
        intro t ht
        exact List.mem_map_of_mem _ ht
      · rw [if_neg hany] at h
        simp at h
    · rw [handleSubmit_of_filter_some _ _ _ _ _ _ e hsome]
      split
      · rename_i hi
        split
        · intro t ht
          exact List.mem_map_of_mem _ ht
        · intro t ht
          rcases List.mem_or_eq_of_mem_set ht with ht | ht
          · exact List.mem_map_of_mem _ ht
          · subst ht
            exact List.mem_map_of_mem (fun t => t.id) (List.get_mem tm.tasks _ hi)
      · intro t ht
        exact List.mem_map_of_mem _ ht

theorem assignedIds_ge (inc : Nat → Nat) (hle : ∀ n, n ≤ inc n) (lower : String → String)
    (ops : List Op) :
    ∀ tm, ∀ i ∈ assignedIds inc lower tm ops, tm.nextId ≤ i := by
  induction ops with
  | nil => intro tm i hi; simp [assignedIds] at hi
  | cons op ops ih =>
    intro tm i hi
    simp only [assignedIds, List.mem_append, Option.mem_toList] at hi
    rcases hi with hi | hi
    · exact (createdId_eq_some inc lower tm op i hi).1 ▸ Nat.le_refl _
    · exact Nat.le_trans (nextId_le_step inc hle lower tm op) (ih _ i hi)

theorem assignedIds_pairwise (inc : Nat → Nat) (hinc : ∀ n, n < inc n)
    (lower : String → String) (ops : List Op) :
    ∀ tm, (assignedIds inc lower tm ops).Pairwise (fun a b => a < b) := by
  induction ops with
  | nil => intro tm; simp [assignedIds]
  | cons op ops ih =>
    intro tm
    simp only [assignedIds]
    rw [List.pairwise_append]
    refine ⟨?_, ih _, ?_⟩
    · cases createdId inc lower tm op <;> simp
    · intro a ha b hb
      rw [Option.mem_toList] at ha
      obtain ⟨h1, h2, _⟩ := createdId_eq_some inc lower tm op a ha
      have := assignedIds_ge inc (fun n => Nat.le_of_lt (hinc n)) lower ops _ b hb
      have := hinc tm.nextId
      omega

theorem tasks_run_assigned (inc : Nat → Nat) (lower : String → String) (ops : List Op) :
    ∀ tm, ∀ t ∈ (run inc lower tm ops).tasks,
      t.id ∈ tm.tasks.map (fun t => t.id) ∨ t.id ∈ assignedIds inc lower tm ops := by
  induction ops with
  | nil => intro tm t ht; left; exact List.mem_map_of_mem _ ht
  | cons op ops ih =>
    intro tm t ht
    simp only [run] at ht
    simp only [assignedIds, List.mem_append, Option.mem_toList]
    rcases ih _ t ht with h | h
    · cases hc : createdId inc lower tm op with
      | none =>
        obtain ⟨u, hu, hEq⟩ := List.mem_map.1 h
        left
        exact hEq ▸ tasks_step_of_createdId_none inc lower tm op hc u hu
      | some i =>
        obtain ⟨_, _, u, hu, htasks⟩ := createdId_eq_some inc lower tm op i hc
        rw [htasks] at h
        simp only [List.map_append, List.mem_append, List.map_cons, List.map_nil,
          List.mem_singleton] at h
        rcases h with h | h
        · left; exact h
        · right; left; rw [h, hu]; rfl
    · right; right; exact h

/-! the two increments -/

theorem exactIncrement_lt (n : Nat) : n < exactIncrement n := Nat.lt_succ_self n

theorem doubleIncrement_le (n : Nat) : n ≤ doubleIncrement n := by
  unfold doubleIncrement
  split
  · omega
  · split <;> omega

theorem doubleIncrement_of_lt (n : Nat) (h : n < 2 ^ 53) : doubleIncrement n = n + 1 := by
  unfold doubleIncrement
  rw [if_pos h]

theorem handleSubmit_congr (inc1 inc2 : Nat → Nat) (lower : String → String)
    (tm : TaskManager) (editId : Option String) (form : FormData) (now : String)
    (h : inc1 tm.nextId = inc2 tm.nextId) :
    tm.handleSubmit inc1 lower editId form now = tm.handleSubmit inc2 lower editId form now := by
  simp only [TaskManager.handleSubmit, h]

theorem handleSubmit_feedback_congr (inc1 inc2 : Nat → Nat) (lower : String → String)
    (tm : TaskManager) (editId : Option String) (form : FormData) (now : String) :
    (tm.handleSubmit inc1 lower editId form now).1 =
      (tm.handleSubmit inc2 lower editId form now).1 := by
  rcases filter_editId_cases editId with hnone | ⟨e, _, _, hsome⟩
  · rw [handleSubmit_of_filter_none _ _ _ _ _ _ hnone, handleSubmit_of_filter_none _ _ _ _ _ _ hnone,
      handleSubmit_add, handleSubmit_add]
    by_cases hany : (tm.tasks.any fun task =>
        lower task.taskName == lower (trim form.taskName)) = true
    · rw [if_pos hany, if_pos hany]
    · rw [if_neg hany, if_neg hany]
  · rw [handleSubmit_of_filter_some _ _ _ _ _ _ e hsome,
      handleSubmit_of_filter_some _ _ _ _ _ _ e hsome]

theorem step_congr (inc1 inc2 : Nat → Nat) (lower : String → String) (tm : TaskManager)
    (op : Op) (h : inc1 tm.nextId = inc2 tm.nextId) :
    step inc1 lower tm op = step inc2 lower tm op ∧
      createdId inc1 lower tm op = createdId inc2 lower tm op := by
  cases op with
  | delete taskId confirmed => exact ⟨rfl, rfl⟩
  | submit editId form now =>
    simp only [step, createdId, handleSubmit_congr inc1 inc2 lower tm editId form now h,
      and_self]

theorem nextId_step_le_succ (lower : String → String) (tm : TaskManager) (op : Op) :
    (step exactIncrement lower tm op).nextId ≤ tm.nextId + 1 := by
  cases op with
  | delete taskId confirmed =>
    cases confirmed
    · simp [step, deleteTask_false]
    · simp [step, deleteTask_true]
  | submit editId form now =>
    simp only [step]
    rcases filter_editId_cases editId with hnone | ⟨e, _, _, hsome⟩
    · rw [handleSubmit_of_filter_none _ _ _ _ _ _ hnone, handleSubmit_add]
      split
      · exact Nat.le_succ _
      · exact Nat.le_refl _
    · rw [handleSubmit_of_filter_some _ _ _ _ _ _ e hsome]
      split
      · split <;> simp
      · simp

theorem run_double_eq_exact (lower : String → String) (ops : List Op) :
    ∀ tm : TaskManager, tm.nextId + ops.length ≤ 2 ^ 53 →
      run doubleIncrement lower tm ops = run exactIncrement lower tm ops ∧
        assignedIds doubleIncrement lower tm ops = assignedIds exactIncrement lower tm ops := by
  induction ops with
  | nil => intro tm _; exact ⟨rfl, rfl⟩
  | cons op ops ih =>
    intro tm h
    simp only [List.length_cons] at h
    have hlt : tm.nextId < 2 ^ 53 := by omega
    obtain ⟨hs, hc⟩ := step_congr doubleIncrement exactIncrement lower tm op
      (doubleIncrement_of_lt _ hlt)
    have hn := nextId_step_le_succ lower tm op
    obtain ⟨h1, h2⟩ := ih (step exactIncrement lower tm op) (by omega)
    simp only [run, assignedIds, hs, hc, h1, h2, and_self]

theorem foldr_max_ge (ids : List Nat) : ∀ i ∈ ids, i ≤ ids.foldr max 0 := by
  induction ids with
  | nil => intro i hi; simp at hi
  | cons a t ih =>
    intro i hi
    simp only [List.foldr_cons]
    rcases List.mem_cons.1 hi with h | h
    · subst h; exact Nat.le_max_left _ _
    · exact Nat.le_trans (ih i h) (Nat.le_max_right _ _)

theorem foldr_max_lt (ids : List Nat) (b : Nat) (hb : 0 < b) (h : ∀ i ∈ ids, i < b) :
    ids.foldr max 0 < b := by
  induction ids with
  | nil => simpa using hb
  | cons a t ih =>
    simp only [List.foldr_cons]
    have h1 := h a (by simp)
    have h2 := ih (fun i hi => h i (by simp [hi]))
    exact Nat.max_lt.2 ⟨h1, h2⟩

end TaskManager

/-! ## The claims -/

namespace TaskManager

/-- Claim C1: a submission without `editId` (create) is answered with "Task name
already exists" exactly when some stored task has a name equal, after
`toLowerCase`, to the trimmed submitted name; a rejected submission leaves the
whole store (tasks, `nextId`, storage entry) as it was; and whenever
`toLowerCase` identifies "Alpha" and "alpha", creating " alpha " right after
creating "Alpha" is rejected, from any store. This holds whatever `increment`
computes. -/
theorem create_rejects_iff_duplicate_name (increment : Nat → Nat)
    (toLowerCase : String → String) (tm : TaskManager) (form : FormData) (now : String) :
    ((tm.handleSubmit increment toLowerCase none form now).1 = .nameExists ↔
        ∃ t ∈ tm.tasks, toLowerCase t.taskName = toLowerCase (trim form.taskName)) ∧
    ((tm.handleSubmit increment toLowerCase none form now).1 = .nameExists →
        (tm.handleSubmit increment toLowerCase none form now).2 = tm) ∧
    (toLowerCase "Alpha" = toLowerCase "alpha" →
      ∀ (first second : FormData) (now2 : String),
        first.taskName = "Alpha" → second.taskName = " alpha " →
        ((tm.handleSubmit increment toLowerCase none first now).2.handleSubmit
            increment toLowerCase none second now2) =
          (.nameExists, (tm.handleSubmit increment toLowerCase none first now).2)) := by
  refine ⟨?_, ?_, ?_⟩
  · rw [handleSubmit_add, ← any_lower_iff]
    split <;> simp_all
  · rw [handleSubmit_add]
    split <;> simp
  · intro hlow first second now2 h1 h2
    have ht1 : trim first.taskName = "Alpha" := by rw [h1]; decide
    have ht2 : trim second.taskName = "alpha" := by rw [h2]; decide
    rw [handleSubmit_add increment toLowerCase _ second, ht2]
    rw [if_pos]
    rw [any_lower_iff, handleSubmit_add, ht1]
    split
    · rename_i h
      rw [any_lower_iff] at h
      obtain ⟨t, ht, hEq⟩ := h
      exact ⟨t, ht, by rw [hEq, hlow]⟩
    · exact ⟨_, List.mem_append_right _ (List.mem_singleton_self _), hlow⟩

/-- The example of C1 with the ASCII lower-casing, from the empty store. -/
theorem create_rejects_iff_duplicate_name_witness :
    asciiToLowerCase "Alpha" = asciiToLowerCase "alpha" ∧
    ((emptyStore.handleSubmit doubleIncrement asciiToLowerCase none
          ⟨"Alpha", "Ann", "Core", "todo"⟩ "2024-05-01T10:00:00.000Z").2.handleSubmit
        doubleIncrement asciiToLowerCase none ⟨" alpha ", "Bob", "Web", "doing"⟩
        "2024-05-02T10:00:00.000Z") =
      (.nameExists, (emptyStore.handleSubmit doubleIncrement asciiToLowerCase none
          ⟨"Alpha", "Ann", "Core", "todo"⟩ "2024-05-01T10:00:00.000Z").2) :=
  ⟨by decide,
    (create_rejects_iff_duplicate_name doubleIncrement asciiToLowerCase emptyStore
      ⟨"Alpha", "Ann", "Core", "todo"⟩ "2024-05-01T10:00:00.000Z").2.2 (by decide)
      ⟨"Alpha", "Ann", "Core", "todo"⟩ ⟨" alpha ", "Bob", "Web", "doing"⟩
      "2024-05-02T10:00:00.000Z" rfl rfl⟩

set_option maxRecDepth 4000 in
/-- Claim C2, as stated, fails: loading the blob of a task with id `2 ^ 53 - 1`
gives the store `saturatedStore` with `nextId = 2 ^ 53`; a create is accepted
there and appends a task with id `2 ^ 53`, but `this.nextId++` leaves `nextId`
at `2 ^ 53`, so it is not increased by one, and the next create is handed the
same id again. -/
theorem create_at_two_pow_53_keeps_nextId :
    TaskManager.init doubleIncrement (some (stringifyTasks [largeIdTask])) =
      .normal saturatedStore ∧
    (saturatedStore.handleSubmit doubleIncrement asciiToLowerCase none
      ⟨"b", "", "", "todo"⟩ "2024-05-02T10:00:00.000Z").1 = .taskAdded ∧
    (saturatedStore.handleSubmit doubleIncrement asciiToLowerCase none
      ⟨"b", "", "", "todo"⟩ "2024-05-02T10:00:00.000Z").2.nextId = saturatedStore.nextId ∧
    (saturatedStore.handleSubmit doubleIncrement asciiToLowerCase none
      ⟨"b", "", "", "todo"⟩ "2024-05-02T10:00:00.000Z").2.nextId ≠ saturatedStore.nextId + 1 ∧
    assignedIds doubleIncrement asciiToLowerCase saturatedStore
      [.submit none ⟨"b", "", "", "todo"⟩ "2024-05-02T10:00:00.000Z",
       .submit none ⟨"c", "", "", "todo"⟩ "2024-05-03T10:00:00.000Z"] =
      [9007199254740992, 9007199254740992] := by
  refine ⟨by decide, by decide, by decide, by decide, by decide⟩

/-- Claim C2, amended: an accepted create leaves the previous sequence in place
and appends one task at its end, whose id is the previous `nextId`, whose three
text fields are the trimmed inputs, whose status is the submitted one and
whose `createdAt` is the current time; and when the previous `nextId` is below
`2 ^ 53`, `nextId` grows by exactly one. -/
theorem create_appends_new_task (toLowerCase : String → String) (tm : TaskManager)
    (form : FormData) (now : String)
    (h : (tm.handleSubmit doubleIncrement toLowerCase none form now).1 = .taskAdded) :
    (tm.handleSubmit doubleIncrement toLowerCase none form now).2.tasks =
        tm.tasks ++ [{ id := tm.nextId, taskName := trim form.taskName,
                       assigneeName := trim form.assigneeName, teamName := trim form.teamName,
                       status := form.status, createdAt := now }] ∧
      (tm.nextId < 2 ^ 53 →
        (tm.handleSubmit doubleIncrement toLowerCase none form now).2.nextId =
          tm.nextId + 1) := by
  rw [handleSubmit_add] at h ⊢
  by_cases hany : (tm.tasks.any fun task =>
      toLowerCase task.taskName == toLowerCase (trim form.taskName)) = true
  · rw [if_pos hany] at h
    simp at h
  · rw [if_neg hany]
    exact ⟨rfl, fun hb => doubleIncrement_of_lt _ hb⟩

/-- The amended C2 on the two-task store of `exampleOps`: the two tasks stay, a
third is appended with id 3, and `nextId` goes from 3 to 4. -/
theorem create_appends_new_task_witness :
    ((run doubleIncrement asciiToLowerCase emptyStore exampleOps).handleSubmit doubleIncrement
        asciiToLowerCase none ⟨" Gamma ", " Cy", "Ops ", "done"⟩
        "2024-05-03T10:00:00.000Z").1 = .taskAdded ∧
    ((run doubleIncrement asciiToLowerCase emptyStore exampleOps).handleSubmit doubleIncrement
        asciiToLowerCase none ⟨" Gamma ", " Cy", "Ops ", "done"⟩
        "2024-05-03T10:00:00.000Z").2.tasks =
      [⟨1, "Alpha", "Ann", "Core", "todo", "2024-05-01T10:00:00.000Z"⟩,
       ⟨2, "Beta", "Bob", "Web", "doing", "2024-05-02T10:00:00.000Z"⟩,
       ⟨3, "Gamma", "Cy", "Ops", "done", "2024-05-03T10:00:00.000Z"⟩] ∧
    ((run doubleIncrement asciiToLowerCase emptyStore exampleOps).handleSubmit doubleIncrement
        asciiToLowerCase none ⟨" Gamma ", " Cy", "Ops ", "done"⟩
        "2024-05-03T10:00:00.000Z").2.nextId = 3 + 1 :=
  ⟨by decide,
    (create_appends_new_task asciiToLowerCase
      (run doubleIncrement asciiToLowerCase emptyStore exampleOps)
      ⟨" Gamma ", " Cy", "Ops ", "done"⟩ "2024-05-03T10:00:00.000Z" (by decide)).1.trans
        (by decide),
    (create_appends_new_task asciiToLowerCase
      (run doubleIncrement asciiToLowerCase emptyStore exampleOps)
      ⟨" Gamma ", " Cy", "Ops ", "done"⟩ "2024-05-03T10:00:00.000Z" (by decide)).2
        (by decide)⟩

/-- Claim C3 (invariant I2): after every sequence of submissions and deletions
from the empty store, no two tasks at distinct positions have names that are
equal after `toLowerCase`. First with the successor on the integers, for every
sequence; then with the double arithmetic of the source, for every sequence of
fewer than `2 ^ 53` calls. -/
theorem reachable_names_distinct (toLowerCase : String → String) (ops : List Op) :
    (run exactIncrement toLowerCase emptyStore ops).tasks.Pairwise
      (fun a b => toLowerCase a.taskName ≠ toLowerCase b.taskName) ∧
    (ops.length < 2 ^ 53 →
      (run doubleIncrement toLowerCase emptyStore ops).tasks.Pairwise
        (fun a b => toLowerCase a.taskName ≠ toLowerCase b.taskName)) := by
  have hI := inv_run exactIncrement exactIncrement_lt toLowerCase ops emptyStore
    (inv_emptyStore toLowerCase)
  refine ⟨hI.names, fun hb => ?_⟩
  rw [(run_double_eq_exact toLowerCase ops emptyStore (by
    show 1 + ops.length ≤ 2 ^ 53
    omega)).1]
  exact hI.names

/-- Claim C4: along every sequence of calls from the empty store the ids handed
out are strictly increasing, so each is greater than every id handed out before
it, deleted or not; the ids in the store are pairwise distinct (I1) and each of
them was handed out in the run; and once a stored task is deleted, every id
handed out later is greater than its id. First with the successor on the
integers, for every sequence; then with the double arithmetic of the source,
for every sequence of fewer than `2 ^ 53` calls. -/
theorem assigned_ids_strictly_increase (toLowerCase : String → String) (ops : List Op) :
    ((assignedIds exactIncrement toLowerCase emptyStore ops).Pairwise (fun a b => a < b) ∧
      ((run exactIncrement toLowerCase emptyStore ops).tasks.map (fun t => t.id)).Nodup ∧
      (∀ t ∈ (run exactIncrement toLowerCase emptyStore ops).tasks,
        t.id ∈ assignedIds exactIncrement toLowerCase emptyStore ops) ∧
      (∀ t ∈ (run exactIncrement toLowerCase emptyStore ops).tasks, ∀ (later : List Op),
        ∀ i ∈ assignedIds exactIncrement toLowerCase
            ((run exactIncrement toLowerCase emptyStore ops).deleteTask t.id true) later,
          t.id < i)) ∧
    (ops.length < 2 ^ 53 →
      (assignedIds doubleIncrement toLowerCase emptyStore ops).Pairwise (fun a b => a < b) ∧
      ((run doubleIncrement toLowerCase emptyStore ops).tasks.map (fun t => t.id)).Nodup ∧
      (∀ t ∈ (run doubleIncrement toLowerCase emptyStore ops).tasks,
        t.id ∈ assignedIds doubleIncrement toLowerCase emptyStore ops) ∧
      (∀ t ∈ (run doubleIncrement toLowerCase emptyStore ops).tasks, ∀ (later : List Op),
        ∀ i ∈ assignedIds doubleIncrement toLowerCase
            ((run doubleIncrement toLowerCase emptyStore ops).deleteTask t.id true) later,
          t.id < i)) := by
  have hI := inv_run exactIncrement exactIncrement_lt toLowerCase ops emptyStore
    (inv_emptyStore toLowerCase)
  have hmem : ∀ t ∈ (run exactIncrement toLowerCase emptyStore ops).tasks,
      t.id ∈ assignedIds exactIncrement toLowerCase emptyStore ops := by
    intro t ht
    rcases tasks_run_assigned exactIncrement toLowerCase ops emptyStore t ht with h | h
    · simp [emptyStore] at h
    · exact h
  refine ⟨⟨assignedIds_pairwise exactIncrement exactIncrement_lt toLowerCase ops emptyStore,
    hI.ids_nodup, hmem, ?_⟩, fun hb => ?_⟩
  · intro t ht later i hi
    have h1 := assignedIds_ge exactIncrement (fun n => Nat.le_of_lt (exactIncrement_lt n))
      toLowerCase later _ i hi
    rw [deleteTask_true] at h1
    exact Nat.lt_of_lt_of_le (hI.ids_lt t ht) h1
  · obtain ⟨hrun, hids⟩ := run_double_eq_exact toLowerCase ops emptyStore (by
      show 1 + ops.length ≤ 2 ^ 53
      omega)
    rw [hrun, hids]
    refine ⟨assignedIds_pairwise exactIncrement exactIncrement_lt toLowerCase ops emptyStore,
      hI.ids_nodup, hmem, ?_⟩
    intro t ht later i hi
    have h1 := assignedIds_ge doubleIncrement doubleIncrement_le toLowerCase later _ i hi
    rw [deleteTask_true] at h1
    exact Nat.lt_of_lt_of_le (hI.ids_lt t ht) h1

/-- Claim C8: an accepted update found a task `old` at a position `i`, the first
one whose id is `parseInt(editId)`; the sequence keeps its length; position `i`
now holds `old` with its id and `createdAt` kept, the trimmed name, assignee and
team and the submitted status; every other position is untouched; `nextId` is
unchanged. This holds whatever `increment` computes. -/
theorem update_replaces_in_place (increment : Nat → Nat) (toLowerCase : String → String)
    (tm : TaskManager) (editId : Option String) (form : FormData) (now : String)
    (h : (tm.handleSubmit increment toLowerCase editId form now).1 = .taskUpdated) :
    ∃ (i : Nat) (old : Task),
      tm.tasks[i]? = some old ∧
      (∃ e, editId = some e ∧ parseInt e = some (old.id : Int)) ∧
      (∀ j < i, ∀ t, tm.tasks[j]? = some t → t.id ≠ old.id) ∧
      (tm.handleSubmit increment toLowerCase editId form now).2.tasks.length =
        tm.tasks.length ∧
      (tm.handleSubmit increment toLowerCase editId form now).2.tasks[i]? =
        some { id := old.id, taskName := trim form.taskName,
               assigneeName := trim form.assigneeName, teamName := trim form.teamName,
               status := form.status, createdAt := old.createdAt } ∧
      (∀ j, j ≠ i →
        (tm.handleSubmit increment toLowerCase editId form now).2.tasks[j]? = tm.tasks[j]?) ∧
      (tm.handleSubmit increment toLowerCase editId form now).2.nextId = tm.nextId := by
  rcases filter_editId_cases editId with hnone | ⟨e, _, hEq, hsome⟩
  · rw [handleSubmit_of_filter_none _ _ _ _ _ _ hnone, handleSubmit_add] at h
    split at h <;> simp at h
  · rw [handleSubmit_of_filter_some _ _ _ _ _ _ e hsome] at h ⊢
    by_cases hi : tm.tasks.findIdx (fun t => decide (parseInt e = some (t.id : Int)))
        < tm.tasks.length
    · rw [dif_pos hi] at h ⊢
      by_cases hany : (tm.tasks.any fun task =>
          decide (parseInt e ≠ some (task.id : Int)) &&
            toLowerCase task.taskName == toLowerCase (trim form.taskName)) = true
      · rw [if_pos hany] at h
        simp at h
      · rw [if_neg hany]
        have hfound : parseInt e = some ((tm.tasks.get ⟨_, hi⟩).id : Int) := by
          have := List.findIdx_getElem (w := hi)
          simpa using this
        refine ⟨tm.tasks.findIdx (fun t => decide (parseInt e = some (t.id : Int))),
          tm.tasks.get ⟨_, hi⟩, ?_, ⟨e, hEq, hfound⟩, ?_, ?_, ?_, ?_, rfl⟩
        · simp [List.getElem?_eq_getElem hi]
        · intro j hj t ht hid
          have hjlen : j < tm.tasks.length := Nat.lt_trans hj hi
          have hnot := List.not_of_lt_findIdx hj
          rw [List.getElem?_eq_getElem hjlen] at ht
          have ht' := Option.some.inj ht
          rw [ht', hfound, hid] at hnot
          simp at hnot
        · simp
        · simp [List.getElem?_set, hi]
        · intro j hj
          simp only
          rw [List.getElem?_set_ne (Ne.symm hj)]
    · rw [dif_neg hi] at h
      simp at h

/-- The statement of C8 on the store of `exampleOps`, updating the task with id 2. -/
theorem update_replaces_in_place_witness :
    ((run doubleIncrement asciiToLowerCase emptyStore exampleOps).handleSubmit doubleIncrement
        asciiToLowerCase (some "2")
        ⟨" Gamma ", "Cy ", "Ops", "done"⟩ "2024-05-03T10:00:00.000Z").1 = .taskUpdated ∧
    ((run doubleIncrement asciiToLowerCase emptyStore exampleOps).handleSubmit doubleIncrement
        asciiToLowerCase (some "2")
        ⟨" Gamma ", "Cy ", "Ops", "done"⟩ "2024-05-03T10:00:00.000Z").2.tasks =
      [⟨1, "Alpha", "Ann", "Core", "todo", "2024-05-01T10:00:00.000Z"⟩,
       ⟨2, "Gamma", "Cy", "Ops", "done", "2024-05-02T10:00:00.000Z"⟩] ∧
    ∃ (i : Nat) (old : Task),
      (run doubleIncrement asciiToLowerCase emptyStore exampleOps).tasks[i]? = some old ∧
      ((run doubleIncrement asciiToLowerCase emptyStore exampleOps).handleSubmit
          doubleIncrement asciiToLowerCase (some "2")
          ⟨" Gamma ", "Cy ", "Ops", "done"⟩ "2024-05-03T10:00:00.000Z").2.tasks[i]? =
        some { id := old.id, taskName := "Gamma", assigneeName := "Cy", teamName := "Ops",
               status := "done", createdAt := old.createdAt } := by
  refine ⟨by decide, by decide, ?_⟩
  obtain ⟨i, old, h1, _, _, _, h5, _, _⟩ :=
    update_replaces_in_place doubleIncrement asciiToLowerCase
      (run doubleIncrement asciiToLowerCase emptyStore exampleOps)
      (some "2") ⟨" Gamma ", "Cy ", "Ops", "done"⟩ "2024-05-03T10:00:00.000Z" (by decide)
  exact ⟨i, old, h1, h5⟩

/-- Claim C9: in every store reached from the empty store, submitting an update
of a stored task under its own id (`editId` is the decimal text of the id) with
its current name, and any assignee, team and status, is answered with "Task
updated", not rejected as a duplicate. First with the successor on the
integers, for every sequence; then with the double arithmetic of the source,
for every sequence of fewer than `2 ^ 53` calls. -/
theorem update_with_own_name_accepted (toLowerCase : String → String) (ops : List Op)
    (t : Task) (ht : t ∈ (run exactIncrement toLowerCase emptyStore ops).tasks)
    (assigneeName teamName status now : String) :
    ((run exactIncrement toLowerCase emptyStore ops).handleSubmit exactIncrement toLowerCase
        (some (numberToString t.id))
        { taskName := t.taskName, assigneeName := assigneeName, teamName := teamName,
          status := status } now).1 = .taskUpdated ∧
    (ops.length < 2 ^ 53 →
      t ∈ (run doubleIncrement toLowerCase emptyStore ops).tasks ∧
      ((run doubleIncrement toLowerCase emptyStore ops).handleSubmit doubleIncrement
          toLowerCase (some (numberToString t.id))
          { taskName := t.taskName, assigneeName := assigneeName, teamName := teamName,
            status := status } now).1 = .taskUpdated) := by
  have hI := inv_run exactIncrement exactIncrement_lt toLowerCase ops emptyStore
    (inv_emptyStore toLowerCase)
  have hrun := fun hb : ops.length < 2 ^ 53 =>
    (run_double_eq_exact toLowerCase ops emptyStore (by
      show 1 + ops.length ≤ 2 ^ 53
      omega)).1
  generalize run exactIncrement toLowerCase emptyStore ops = tm at ht hI hrun
  have key : ∀ inc : Nat → Nat, (tm.handleSubmit inc toLowerCase
      (some (numberToString t.id))
      { taskName := t.taskName, assigneeName := assigneeName, teamName := teamName,
        status := status } now).1 = .taskUpdated := by
    intro inc
    have hsome : (some (numberToString t.id)).filter (fun e => e ≠ "") =
        some (numberToString t.id) := by
      simp [Option.filter, numberToString_ne_empty]
    rw [handleSubmit_of_filter_some _ _ _ _ _ _ _ hsome]
    simp only [parseInt_numberToString]
    have hi : tm.tasks.findIdx (fun u => decide (some (t.id : Int) = some (u.id : Int)))
        < tm.tasks.length := by
      apply List.findIdx_lt_length_of_exists
      exact ⟨t, ht, by simp⟩
    rw [dif_pos hi, if_neg]
    intro hany
    rw [List.any_eq_true] at hany
    obtain ⟨u, hu, hcond⟩ := hany
    simp only [Bool.and_eq_true, decide_eq_true_eq, beq_iff_eq] at hcond
    obtain ⟨hid, hname⟩ := hcond
    rw [hI.trimmed t ht] at hname
    have hne : u ≠ t := by
      intro hEq; subst hEq; exact hid rfl
    exact (List.Pairwise.forall (fun a b h => Ne.symm h) hI.names hu ht hne) hname
  refine ⟨key exactIncrement, fun hb => ?_⟩
  rw [hrun hb]
  exact ⟨ht, key doubleIncrement⟩

/-- The statement of C9 for the first task of `exampleOps`. -/
theorem update_with_own_name_accepted_witness :
    (⟨1, "Alpha", "Ann", "Core", "todo", "2024-05-01T10:00:00.000Z"⟩ : Task) ∈
        (run exactIncrement asciiToLowerCase emptyStore exampleOps).tasks ∧
    ((run doubleIncrement asciiToLowerCase emptyStore exampleOps).handleSubmit doubleIncrement
        asciiToLowerCase (some (numberToString 1))
        { taskName := "Alpha", assigneeName := "Zoe", teamName := "Ops", status := "done" }
        "2024-05-03T10:00:00.000Z").1 = .taskUpdated :=
  ⟨by decide,
    ((update_with_own_name_accepted asciiToLowerCase exampleOps
      ⟨1, "Alpha", "Ann", "Core", "todo", "2024-05-01T10:00:00.000Z"⟩ (by decide)
      "Zoe" "Ops" "done" "2024-05-03T10:00:00.000Z").2 (by decide)).2⟩

/-- Claim C10: a confirmed `deleteTask(id)` keeps exactly the tasks whose id
differs from `id`, in their order, and keeps `nextId`; when no task has that id
the sequence is unchanged; deleting the same id a second time changes nothing
more. -/
theorem deleteTask_removes_only_that_id (tm : TaskManager) (taskId : Nat) :
    (tm.deleteTask taskId true).tasks = tm.tasks.filter (fun t => t.id ≠ taskId) ∧
    (tm.deleteTask taskId true).nextId = tm.nextId ∧
    ((∀ t ∈ tm.tasks, t.id ≠ taskId) →
      (tm.deleteTask taskId true).tasks = tm.tasks) ∧
    (tm.deleteTask taskId true).deleteTask taskId true = tm.deleteTask taskId true := by
  refine ⟨by rw [deleteTask_true], by rw [deleteTask_true], ?_, ?_⟩
  · intro h
    rw [deleteTask_true]
    simp only
    rw [List.filter_eq_self]
    intro t ht
    simpa using h t ht
  · rw [deleteTask_true, deleteTask_true]
    simp only [List.filter_filter, Bool.and_self]

/-- Claim C7: loading the blob that `saveTasksToStorage` wrote for a store
returns normally with the same tasks in the same order and the recomputed
`nextId`, both into the same instance and into a freshly constructed one; saving
and loading the result once more gives the same store again. This holds
whatever `increment` computes. -/
theorem save_then_load_restores_tasks (increment : Nat → Nat) (tm : TaskManager) :
    tm.saveTasksToStorage.loadTasksFromStorage increment =
        .normal { tasks := tm.tasks
                  nextId := increment ((tm.tasks.map (fun t => t.id)).foldr max 0)
                  storage := some (stringifyTasks tm.tasks) } ∧
    TaskManager.init increment tm.saveTasksToStorage.storage =
        .normal { tasks := tm.tasks
                  nextId := increment ((tm.tasks.map (fun t => t.id)).foldr max 0)
                  storage := some (stringifyTasks tm.tasks) } ∧
    TaskManager.loadTasksFromStorage increment (TaskManager.saveTasksToStorage
          { tasks := tm.tasks
            nextId := increment ((tm.tasks.map (fun t => t.id)).foldr max 0)
            storage := some (stringifyTasks tm.tasks) }) =
        .normal { tasks := tm.tasks
                  nextId := increment ((tm.tasks.map (fun t => t.id)).foldr max 0)
                  storage := some (stringifyTasks tm.tasks) } :=
  ⟨loadTasksFromStorage_stringifyTasks _ _ _ rfl,
    loadTasksFromStorage_stringifyTasks _ _ _ rfl,
    loadTasksFromStorage_stringifyTasks _ _ _ rfl⟩

/-- Claim C5, as stated, fails: in the run `reuseOps` the ids 1 and 2 are handed
out and the task with id 2 is deleted; after a save and a fresh load only the
task with id 1 is back, `nextId` is 2, and the next create receives the id 2
again. -/
theorem reload_reuses_deleted_id :
    assignedIds doubleIncrement asciiToLowerCase emptyStore reuseOps = [1, 2] ∧
    (run doubleIncrement asciiToLowerCase emptyStore reuseOps).tasks =
      [⟨1, "a", "", "", "todo", "2024-05-01T10:00:00.000Z"⟩] ∧
    TaskManager.init doubleIncrement
        (run doubleIncrement asciiToLowerCase emptyStore reuseOps).saveTasksToStorage.storage =
      .normal { tasks := [⟨1, "a", "", "", "todo", "2024-05-01T10:00:00.000Z"⟩]
                nextId := 2
                storage := (run doubleIncrement asciiToLowerCase emptyStore
                  reuseOps).saveTasksToStorage.storage } ∧
    createdId doubleIncrement asciiToLowerCase
        { tasks := [⟨1, "a", "", "", "todo", "2024-05-01T10:00:00.000Z"⟩]
          nextId := 2
          storage := (run doubleIncrement asciiToLowerCase emptyStore
            reuseOps).saveTasksToStorage.storage }
        (.submit none ⟨"c", "", "", "todo"⟩ "2024-05-03T10:00:00.000Z") = some 2 := by
  refine ⟨by decide, by decide, by decide, by decide⟩

/-- Claim C5, amended: for a store whose ids are all below `2 ^ 53`, loading the
blob saved for it returns normally with the saved tasks and
`nextId = 1 + max(ids of the saved tasks, default 0)`, and every id handed out
afterwards is greater than the id of every task that was in the store when it
was saved. Ids of tasks deleted before the save are not covered. -/
theorem reload_next_id_above_stored_ids (toLowerCase : String → String) (tm : TaskManager)
    (hb : ∀ t ∈ tm.tasks, t.id < 2 ^ 53) :
    TaskManager.init doubleIncrement tm.saveTasksToStorage.storage =
        .normal { tasks := tm.tasks
                  nextId := (tm.tasks.map (fun t => t.id)).foldr max 0 + 1
                  storage := some (stringifyTasks tm.tasks) } ∧
    ∀ (later : List Op),
      ∀ i ∈ assignedIds doubleIncrement toLowerCase
          { tasks := tm.tasks
            nextId := (tm.tasks.map (fun t => t.id)).foldr max 0 + 1
            storage := some (stringifyTasks tm.tasks) } later,
        ∀ t ∈ tm.tasks, t.id < i := by
  have hmax : (tm.tasks.map (fun t => t.id)).foldr max 0 < 2 ^ 53 := by
    apply foldr_max_lt _ _ (by decide)
    intro i hi
    obtain ⟨t, ht, rfl⟩ := List.mem_map.1 hi
    exact hb t ht
  refine ⟨?_, ?_⟩
  · have h := loadTasksFromStorage_stringifyTasks doubleIncrement
      { tasks := [], nextId := 1, storage := tm.saveTasksToStorage.storage } tm.tasks rfl
    rw [doubleIncrement_of_lt _ hmax] at h
    exact h
  · intro later i hi t ht
    have h1 := assignedIds_ge doubleIncrement doubleIncrement_le toLowerCase later _ i hi
    have h2 := foldr_max_ge (tm.tasks.map (fun t => t.id)) t.id (List.mem_map_of_mem _ ht)
    simp only at h1
    omega

/-- The amended C5 on the store of `reuseOps`: the task with id 1 is restored,
`nextId` is 2, and the two creates that follow are handed the ids 2 and 3, both
above 1. -/
theorem reload_next_id_above_stored_ids_witness :
    (∀ t ∈ (run doubleIncrement asciiToLowerCase emptyStore reuseOps).tasks, t.id < 2 ^ 53) ∧
    TaskManager.init doubleIncrement
        (run doubleIncrement asciiToLowerCase emptyStore reuseOps).saveTasksToStorage.storage =
      .normal { tasks := (run doubleIncrement asciiToLowerCase emptyStore reuseOps).tasks
                nextId := 2
                storage := some (stringifyTasks
                  (run doubleIncrement asciiToLowerCase emptyStore reuseOps).tasks) } ∧
    ∀ i ∈ assignedIds doubleIncrement asciiToLowerCase
        { tasks := (run doubleIncrement asciiToLowerCase emptyStore reuseOps).tasks
          nextId := 2
          storage := some (stringifyTasks
            (run doubleIncrement asciiToLowerCase emptyStore reuseOps).tasks) }
        [.submit none ⟨"c", "", "", "todo"⟩ "2024-05-03T10:00:00.000Z",
         .submit none ⟨"d", "", "", "todo"⟩ "2024-05-04T10:00:00.000Z"],
      ∀ t ∈ (run doubleIncrement asciiToLowerCase emptyStore reuseOps).tasks, t.id < i :=
  ⟨by decide,
    (reload_next_id_above_stored_ids asciiToLowerCase
      (run doubleIncrement asciiToLowerCase emptyStore reuseOps) (by decide)).1,
    (reload_next_id_above_stored_ids asciiToLowerCase
      (run doubleIncrement asciiToLowerCase emptyStore reuseOps) (by decide)).2 _⟩

/-- Claim C6, as stated, fails: on a present blob that is not JSON
`loadTasksFromStorage` ends by throwing the `SyntaxError` of `JSON.parse`, for a
truncated array as well, and on the JSON text `null` it ends by throwing a
`TypeError`. -/
theorem load_unparsable_blob_throws :
    ({ tasks := [], nextId := 1, storage := some "not json" } :
        TaskManager).loadTasksFromStorage doubleIncrement = .throw .syntaxError ∧
    TaskManager.init doubleIncrement (some "[1,") = .throw .syntaxError ∧
    TaskManager.init doubleIncrement (some "null") = .throw .typeError := by
  refine ⟨by decide, by decide, by decide⟩

/-- Claim C6, amended: when the blob is absent or empty the freshly constructed
store is returned as it is, with no tasks and `nextId = 1`; when the blob is
present and non-empty and `JSON.parse` throws, that error reaches the caller;
when it parses to a value that is not an array, a `TypeError` reaches the
caller. This holds whatever `increment` computes. -/
theorem load_absent_or_empty_blob_else_raises (increment : Nat → Nat)
    (stored : Option String) :
    ((stored = none ∨ stored = some "") →
      TaskManager.init increment stored =
        .normal { tasks := [], nextId := 1, storage := stored }) ∧
    (∀ blob, stored = some blob → blob ≠ "" → JSON.parse blob = .throw .syntaxError →
      TaskManager.init increment stored = .throw .syntaxError) ∧
    (∀ blob value, stored = some blob → blob ≠ "" → JSON.parse blob = .normal value →
      (∀ elements, value ≠ .arr elements) →
      TaskManager.init increment stored = .throw .typeError) := by
  refine ⟨?_, ?_, ?_⟩
  · rintro (h | h) <;> subst h <;> rfl
  · intro blob hs hne hp
    subst hs
    simp only [TaskManager.init, TaskManager.loadTasksFromStorage, if_neg hne, hp]
  · intro blob value hs hne hp hna
    subst hs
    cases value with
    | arr elements => exact absurd rfl (hna elements)
    | _ => simp only [TaskManager.init, TaskManager.loadTasksFromStorage, if_neg hne, hp]

/-- The four cases of the amended C6 on concrete blobs. -/
theorem load_absent_or_empty_blob_else_raises_witness :
    TaskManager.init doubleIncrement none =
      .normal { tasks := [], nextId := 1, storage := none } ∧
    TaskManager.init doubleIncrement (some "") =
      .normal { tasks := [], nextId := 1, storage := some "" } ∧
    TaskManager.init doubleIncrement (some "not json") = .throw .syntaxError ∧
    TaskManager.init doubleIncrement (some "null") = .throw .typeError :=
  ⟨(load_absent_or_empty_blob_else_raises doubleIncrement none).1 (Or.inl rfl),
    (load_absent_or_empty_blob_else_raises doubleIncrement (some "")).1 (Or.inr rfl),
    (load_absent_or_empty_blob_else_raises doubleIncrement (some "not json")).2.1 "not json"
      rfl (by decide) rfl,
    (load_absent_or_empty_blob_else_raises doubleIncrement (some "null")).2.2 "null" .null
      rfl (by decide) rfl (by intro elements h; cases h)⟩

end TaskManager
